import Mathlib

/-!
Verification development for the repository's diff engine specification and
its step-history store.  The diff engine (compute, serialize, parse, stats,
apply over line sequences) is specified as the replacement for the naive
line-position comparison found in the sources; the step store and history
provider are embedded from src/state/stepStore.ts and
src/providers/stepHistoryProvider.ts.
-/

/-- Decidable equality for Except values, used to evaluate the engine's
results on concrete inputs. -/
instance {ε α : Type _} [DecidableEq ε] [DecidableEq α] : DecidableEq (Except ε α) := fun x y =>
  match x, y with
  | .ok a, .ok b =>
    if h : a = b then isTrue (by rw [h]) else isFalse (by intro hh; cases hh; exact h rfl)
  | .error a, .error b =>
    if h : a = b then isTrue (by rw [h]) else isFalse (by intro hh; cases hh; exact h rfl)
  | .ok _, .error _ => isFalse (by intro hh; cases hh)
  | .error _, .ok _ => isFalse (by intro hh; cases hh)

namespace DiffEngine

/-- Modelled from the spec: the repository sources contain no LCS diff engine
(only a naive line-position comparison in DiffManager.calculateChangedLines
and DiffParser), so EditOp follows the spec's data model: a tagged variant
over Equal, Insert, Delete, carrying the 0-based index into the old sequence
(Equal, Delete) and/or the new sequence (Equal, Insert), and the line
content. -/
inductive EditOp where
  | equal (oldIdx newIdx : Nat) (content : String)
  | delete (oldIdx : Nat) (content : String)
  | insert (newIdx : Nat) (content : String)
deriving DecidableEq, Repr

/-- Modelled from the spec: a Hunk is a contiguous run of EditOps plus
context, with 1-based oldStart, oldCount, newStart, newCount attributes
(a side with count 0 records the 0-based position before which the change
applies, per unified-diff convention). -/
structure Hunk where
  oldStart : Nat
  oldCount : Nat
  newStart : Nat
  newCount : Nat
  ops : List EditOp
deriving DecidableEq, Repr

/-- Modelled from the spec: a UnifiedDiff has two file labels and an ordered
sequence of hunks. -/
structure UnifiedDiff where
  fileLabelOld : String
  fileLabelNew : String
  hunks : List Hunk
deriving DecidableEq, Repr

/-- Modelled from the spec: derived statistics of a diff. -/
structure Stats where
  additions : Nat
  deletions : Nat
  unchanged : Nat
deriving DecidableEq, Repr

/-- Modelled from the spec: the error taxonomy of the diff engine.
MalformedDiffError is raised by parse, DiffConflictError by apply. -/
inductive DiffError where
  | malformedDiff
  | diffConflict
deriving DecidableEq, Repr

/-- Tests whether an op is an Equal op. -/
def isEqualOp : EditOp → Bool
  | .equal _ _ _ => true
  | _ => false

/-- Tests whether an op is an Insert op. -/
def isInsertOp : EditOp → Bool
  | .insert _ _ => true
  | _ => false

/-- Tests whether an op is a Delete op. -/
def isDeleteOp : EditOp → Bool
  | .delete _ _ => true
  | _ => false

/-- Tests whether an op consumes a line of the old sequence (Equal or
Delete). -/
def opUsesOld : EditOp → Bool
  | .equal _ _ _ => true
  | .delete _ _ => true
  | .insert _ _ => false

/-- Tests whether an op produces a line of the new sequence (Equal or
Insert). -/
def opUsesNew : EditOp → Bool
  | .equal _ _ _ => true
  | .delete _ _ => false
  | .insert _ _ => true

/-- Old-side lines of an op sequence: contents of Equal and Delete ops, in
order. -/
def oldContents (ops : List EditOp) : List String :=
  ops.filterMap fun op =>
    match op with
    | .equal _ _ s => some s
    | .delete _ s => some s
    | .insert _ _ => none

/-- New-side lines of an op sequence: contents of Equal and Insert ops, in
order. -/
def newContents (ops : List EditOp) : List String :=
  ops.filterMap fun op =>
    match op with
    | .equal _ _ s => some s
    | .delete _ _ => none
    | .insert _ s => some s

/-- Contents of the Equal ops of an op sequence, in order. -/
def equalContents (ops : List EditOp) : List String :=
  ops.filterMap fun op =>
    match op with
    | .equal _ _ s => some s
    | .delete _ _ => none
    | .insert _ _ => none

/-- Number of old-side lines covered by an op sequence. -/
def oldLen (ops : List EditOp) : Nat := (oldContents ops).length

/-- Number of new-side lines produced by an op sequence. -/
def newLen (ops : List EditOp) : Nat := (newContents ops).length

/-- Modelled from the spec: length of the longest common subsequence of two
line sequences, by the standard recurrence (diagonal plus one on a match,
otherwise the max of dropping one element on either side). -/
def lcsLen : List String → List String → Nat
  | [], _ => 0
  | _ :: _, [] => 0
  | o :: os, n :: ns =>
    if o = n then lcsLen os ns + 1
    else max (lcsLen os (n :: ns)) (lcsLen (o :: os) ns)
termination_by o n => o.length + n.length

/-- Modelled from the spec: the LCS backtracking stage of compute, emitting
the forward edit-op sequence.  A match emits Equal; otherwise Delete is
preferred over Insert whenever deleting keeps the LCS length at least as
large as inserting (the deterministic tie-break of the spec, which puts
Delete before Insert, matching the spec's concrete scenario).  The i and j
counters carry the current 0-based old and new indices. -/
def computeOps : Nat → Nat → List String → List String → List EditOp
  | _, _, [], [] => []
  | i, j, o :: os, [] => .delete i o :: computeOps (i + 1) j os []
  | i, j, [], n :: ns => .insert j n :: computeOps i (j + 1) [] ns
  | i, j, o :: os, n :: ns =>
    if o = n then .equal i j o :: computeOps (i + 1) (j + 1) os ns
    else if lcsLen (o :: os) ns ≤ lcsLen os (n :: ns) then
      .delete i o :: computeOps (i + 1) j os (n :: ns)
    else
      .insert j n :: computeOps i (j + 1) (o :: os) ns
termination_by _ _ o n => o.length + n.length

/-- States that the op indices of a sequence are the consecutive positions
reached from the given 0-based old and new start positions (the invariant
of the op sequences emitted by computeOps and of every hunk body). -/
def OpsIndexed : Nat → Nat → List EditOp → Prop
  | _, _, [] => True
  | i, j, .equal a b _ :: rest => a = i ∧ b = j ∧ OpsIndexed (i + 1) (j + 1) rest
  | i, j, .delete a _ :: rest => a = i ∧ OpsIndexed (i + 1) j rest
  | i, j, .insert b _ :: rest => b = j ∧ OpsIndexed i (j + 1) rest

/-- Builds a hunk from its ops and the 0-based old and new positions of its
first line; the 1-based start fields follow the unified-diff convention
(a side with no ops keeps the 0-based position, with count 0). -/
def mkHunk (i j : Nat) (ops : List EditOp) : Hunk :=
  ⟨if oldLen ops = 0 then i else i + 1, oldLen ops,
   if newLen ops = 0 then j else j + 1, newLen ops, ops⟩

/-- Modelled from the spec: the hunk-collection loop of compute's grouping
stage.  Called at the start of a hunk: i and j are the 0-based positions of
the hunk's first op, acc holds the leading context already taken, and ops
starts at a non-Equal op.  It scans the maximal run of non-Equal ops, then
the following Equal run; if another change follows within an overlapping
context window (fewer than twice contextLines Equal ops between the runs)
the runs are merged into one hunk, otherwise the hunk is closed with up to
contextLines Equal ops of trailing context and collection restarts at the
next change with its leading context. -/
def collectFrom (c : Nat) : Nat → Nat → List EditOp → List EditOp → List Hunk
  | _, _, _, [] => []
  | i, j, acc, op :: tl =>
    let ch := tl.takeWhile (fun o => ! isEqualOp o)
    let rest := tl.dropWhile (fun o => ! isEqualOp o)
    let eqRun := rest.takeWhile isEqualOp
    let rest2 := rest.dropWhile isEqualOp
    match rest2 with
    | [] => [mkHunk i j (acc ++ op :: ch ++ eqRun.take c)]
    | _ :: _ =>
      if eqRun.length < 2 * c then
        collectFrom c i j (acc ++ op :: ch ++ eqRun) rest2
      else
        let hops := acc ++ op :: ch ++ eqRun.take c
        mkHunk i j hops ::
          collectFrom c (i + oldLen hops + (eqRun.length - 2 * c))
            (j + newLen hops + (eqRun.length - 2 * c))
            (eqRun.drop (eqRun.length - c)) rest2
termination_by _ _ _ ops => ops.length
decreasing_by
  all_goals
    simp only [List.length_cons]
    have h1 : (List.dropWhile isEqualOp (List.dropWhile (fun o => !isEqualOp o) tl)).length ≤
        (List.dropWhile (fun o => !isEqualOp o) tl).length :=
      (List.dropWhile_sublist _).length_le
    have h2 : (List.dropWhile (fun o => !isEqualOp o) tl).length ≤ tl.length :=
      (List.dropWhile_sublist _).length_le
    omega

/-- Modelled from the spec: the grouping stage of compute.  Skips the
Equal ops before the first change, keeping up to contextLines of them as
leading context, and hands over to the hunk-collection loop; line-identical
inputs (no change op at all) yield no hunks. -/
def groupOps (c i j : Nat) (ops : List EditOp) : List Hunk :=
  let pre := ops.takeWhile isEqualOp
  match ops.dropWhile isEqualOp with
  | [] => []
  | op :: tl =>
    let skip := pre.length - c
    collectFrom c (i + skip) (j + skip) (pre.drop skip) (op :: tl)

/-- Modelled from the spec: compute builds the LCS-based edit script of the
two line sequences and groups it into contextual hunks.  The file labels are
fixed (the spec's compute takes no label arguments); the spec's default for
contextLines is 3. -/
def compute (old new : List String) (contextLines : Nat) : UnifiedDiff :=
  ⟨"a/file", "b/file", groupOps contextLines 0 0 (computeOps 0 0 old new)⟩

/-- Modelled from the spec: stats is pure aggregation counting Insert ops as
additions, Delete ops as deletions, Equal ops as unchanged, across all
hunks. -/
def stats (d : UnifiedDiff) : Stats :=
  let allOps := (d.hunks.map Hunk.ops).flatten
  ⟨allOps.countP isInsertOp, allOps.countP isDeleteOp, allOps.countP isEqualOp⟩

/-- Gives the 0-based old position of the first line of a hunk's window
(undoing the 1-based convention of mkHunk). -/
def hunkOldStart0 (h : Hunk) : Nat :=
  if h.oldCount = 0 then h.oldStart else h.oldStart - 1

/-- Modelled from the spec: the hunk-replay loop of apply.  Lines of the old
sequence before a hunk's window are copied unchanged; at each hunk the
recorded old-side lines must match the corresponding region of the old
sequence at oldStart, else DiffConflictError; a matching window is replaced
by the hunk's new-side lines. -/
def applyHunks (old : List String) : Nat → List Hunk → Except DiffError (List String)
  | pos, [] => .ok (old.drop pos)
  | pos, h :: hs =>
    let start := hunkOldStart0 h
    if (old.drop start).take h.oldCount = oldContents h.ops then
      match applyHunks old (start + h.oldCount) hs with
      | .ok restLines => .ok ((old.drop pos).take (start - pos) ++ newContents h.ops ++ restLines)
      | .error e => .error e
    else .error .diffConflict

/-- Modelled from the spec: apply replays a UnifiedDiff against a given old
sequence to produce the new sequence, failing with DiffConflictError when a
hunk's recorded old-side lines do not match the live old sequence at the
expected offset. -/
def apply (old : List String) (d : UnifiedDiff) : Except DiffError (List String) :=
  applyHunks old 0 d.hunks

/-- Splits a character list at every occurrence of a separator character;
always returns at least one (possibly empty) piece. -/
def splitOnChar (sep : Char) : List Char → List (List Char)
  | [] => [[]]
  | ch :: cs =>
    match splitOnChar sep cs with
    | [] => [[]]
    | r :: rs => if ch = sep then [] :: r :: rs else (ch :: r) :: rs

/-- Joins character lists with a separator character between consecutive
pieces (the inverse of splitOnChar for separator-free pieces). -/
def joinWithChar (sep : Char) : List (List Char) → List Char
  | [] => []
  | [l] => l
  | l :: l2 :: ls => l ++ sep :: joinWithChar sep (l2 :: ls)

/-- Modelled from the spec: a LineSequence is derived by splitting a
document body on line boundaries. -/
def splitLines (s : String) : List String :=
  (splitOnChar (Char.ofNat 10) s.data).map String.mk

/-- Joins lines back into a single text with newline separators. -/
def joinLines (ls : List String) : String :=
  String.mk (joinWithChar (Char.ofNat 10) (ls.map String.data))

/-- Gives the decimal digit character of a value below ten. -/
def digitChar (n : Nat) : Char := Char.ofNat (48 + n)

/-- Gives the decimal digit characters of a natural number, most significant
first. -/
def natDigits (n : Nat) : List Char :=
  if n < 10 then [digitChar n]
  else natDigits (n / 10) ++ [digitChar (n % 10)]
termination_by n
decreasing_by exact Nat.div_lt_self (by omega) (by omega)

/-- Reads a nonempty all-digit character list as a decimal natural
number. -/
def parseNat (cs : List Char) : Option Nat :=
  if cs ≠ [] ∧ cs.all Char.isDigit then
    some (cs.foldl (fun a ch => a * 10 + (ch.toNat - 48)) 0)
  else none

/-- Modelled from the spec: one serialized op line, the line content behind
the one-character kind marker (space for Equal, minus for Delete, plus for
Insert). -/
def serializeOp : EditOp → String
  | .equal _ _ s => String.mk (' ' :: s.data)
  | .delete _ s => String.mk ('-' :: s.data)
  | .insert _ s => String.mk ('+' :: s.data)

/-- Modelled from the spec: the characters of a hunk's range line,
with both counts always written explicitly (the spec leaves omitting a
count of one to the implementer). -/
def rangeLineChars (h : Hunk) : List Char :=
  ['@', '@'] ++ ' ' ::
    (('-' :: natDigits h.oldStart ++ ',' :: natDigits h.oldCount) ++ ' ' ::
      (('+' :: natDigits h.newStart ++ ',' :: natDigits h.newCount) ++ ' ' :: ['@', '@']))

/-- Modelled from the spec: the serialized lines of one hunk: the range line
followed by one line per op. -/
def serializeHunk (h : Hunk) : List String :=
  String.mk (rangeLineChars h) :: h.ops.map serializeOp

/-- Modelled from the spec: all serialized lines of a diff: the two header
lines followed by the lines of every hunk. -/
def serializeLines (d : UnifiedDiff) : List String :=
  String.mk ('-' :: '-' :: '-' :: ' ' :: d.fileLabelOld.data) ::
  String.mk ('+' :: '+' :: '+' :: ' ' :: d.fileLabelNew.data) ::
  (d.hunks.map serializeHunk).flatten

/-- Modelled from the spec: serialize produces the textual unified-diff
format, joining the header lines, range lines and op lines with
newlines. -/
def serialize (d : UnifiedDiff) : String := joinLines (serializeLines d)

/-- Reads one side of a range line after its sign: either a bare start
(count defaults to one) or a comma-separated start and count. -/
def parsePair (cs : List Char) : Option (Nat × Nat) :=
  match splitOnChar ',' cs with
  | [a] => (parseNat a).map (fun x => (x, 1))
  | [a, b] =>
    match parseNat a, parseNat b with
    | some x, some y => some (x, y)
    | _, _ => none
  | _ => none

/-- Modelled from the spec: recognizes and reads a range line of the
grammar with at-at markers, a minus side and a plus side, each a start with
an optional comma-separated count. -/
def parseRange (cs : List Char) : Option (Nat × Nat × Nat × Nat) :=
  match splitOnChar ' ' cs with
  | [m1, sOld, sNew, m2] =>
    if m1 = ['@', '@'] ∧ m2 = ['@', '@'] then
      match sOld, sNew with
      | '-' :: oPart, '+' :: nPart =>
        match parsePair oPart, parsePair nPart with
        | some (a, b), some (c2, d) => some (a, b, c2, d)
        | _, _ => none
      | _, _ => none
    else none
  | _ => none

/-- Tests whether a line carries one of the three valid hunk body markers
(space, minus, plus). -/
def hasBodyPfx (s : String) : Bool :=
  match s.data with
  | ' ' :: _ => true
  | '-' :: _ => true
  | '+' :: _ => true
  | _ => false

/-- Modelled from the spec: reads the body lines of a hunk back into ops,
rebuilding the 0-based old and new indices from the hunk's start
positions. -/
def parseBody (i j : Nat) : List String → Option (List EditOp)
  | [] => some []
  | line :: rest =>
    match line.data with
    | ' ' :: cs => (parseBody (i + 1) (j + 1) rest).map (fun ops => .equal i j (String.mk cs) :: ops)
    | '-' :: cs => (parseBody (i + 1) j rest).map (fun ops => .delete i (String.mk cs) :: ops)
    | '+' :: cs => (parseBody i (j + 1) rest).map (fun ops => .insert j (String.mk cs) :: ops)
    | _ => none

/-- Tests whether a hunk body line consumes an old-side line (Equal or
Delete marker). -/
def lineUsesOld (s : String) : Bool :=
  match s.data with
  | ' ' :: _ => true
  | '-' :: _ => true
  | _ => false

/-- Tests whether a hunk body line produces a new-side line (Equal or
Insert marker). -/
def lineUsesNew (s : String) : Bool :=
  match s.data with
  | ' ' :: _ => true
  | '+' :: _ => true
  | _ => false

/-- Number of Equal plus Delete ops of an op sequence. -/
def countOldOps (ops : List EditOp) : Nat := ops.countP opUsesOld

/-- Number of Equal plus Insert ops of an op sequence. -/
def countNewOps (ops : List EditOp) : Nat := ops.countP opUsesNew

/-- Modelled from the spec: reads the hunks of a unified diff.  Each block
must open with a range line matching the grammar; the following lines with
a valid body marker are consumed as the hunk body, whose Equal plus Delete
and Equal plus Insert tallies must equal the declared counts. -/
def parseHunks : List String → Option (List Hunk)
  | [] => some []
  | line :: rest =>
    match parseRange line.data with
    | none => none
    | some (a, b, c2, d) =>
      let body := rest.takeWhile hasBodyPfx
      let rest2 := rest.dropWhile hasBodyPfx
      match parseBody (if b = 0 then a else a - 1) (if d = 0 then c2 else c2 - 1) body with
      | none => none
      | some ops =>
        if countOldOps ops = b ∧ countNewOps ops = d then
          match parseHunks rest2 with
          | some hs => some (⟨a, b, c2, d, ops⟩ :: hs)
          | none => none
        else none
termination_by ls => ls.length
decreasing_by
  simp only [List.length_cons]
  have h1 : (List.dropWhile hasBodyPfx rest).length ≤ rest.length :=
    (List.dropWhile_sublist _).length_le
  omega

/-- Strips a fixed leading character sequence, giving the remainder or
nothing when the sequence is absent. -/
def dropPfx : List Char → List Char → Option (List Char)
  | [], cs => some cs
  | _ :: _, [] => none
  | p :: ps, c2 :: cs => if p = c2 then dropPfx ps cs else none

/-- Modelled from the spec: parse is the inverse of serialize, failing with
MalformedDiffError when the text does not carry the two header lines, when a
range line does not match the grammar, or when a hunk's declared counts do
not match its consumed body lines. -/
def parse (text : String) : Except DiffError UnifiedDiff :=
  match splitLines text with
  | l1 :: l2 :: rest =>
    match dropPfx ['-', '-', '-', ' '] l1.data, dropPfx ['+', '+', '+', ' '] l2.data with
    | some lab1, some lab2 =>
      match parseHunks rest with
      | some hs => .ok ⟨String.mk lab1, String.mk lab2, hs⟩
      | none => .error .malformedDiff
    | _, _ => .error .malformedDiff
  | _ => .error .malformedDiff

/-- Modelled from the spec: the well-formedness a successful parse certifies
of the hunk lines it consumed: the lines decompose into blocks, one per
hunk, each opening with a range line matching the grammar and carrying
exactly the hunk's header numbers, followed by body lines all carrying one
of the three valid markers, whose old-side and new-side tallies equal the
declared counts. -/
def BlocksOf : List String → List Hunk → Prop
  | lines, [] => lines = []
  | lines, h :: hs => ∃ (rl : String) (body rest : List String),
      lines = rl :: (body ++ rest) ∧
      parseRange rl.data = some (h.oldStart, h.oldCount, h.newStart, h.newCount) ∧
      (∀ l ∈ body, hasBodyPfx l = true) ∧
      body.countP lineUsesOld = h.oldCount ∧
      body.countP lineUsesNew = h.newCount ∧
      h.ops.countP opUsesOld = h.oldCount ∧
      h.ops.countP opUsesNew = h.newCount ∧
      BlocksOf rest hs

end DiffEngine

namespace StepKit

/-- Status of a step, embedded from the union type of stepStore.ts. -/
inductive StepStatus where
  | accepted
  | rejected
  | pending
deriving DecidableEq, Repr

/-- Diff information of a code change, embedded from stepStore.ts. -/
structure DiffInfo where
  original : String
  modified : String
deriving DecidableEq, Repr

/-- Step representing a single AI action, embedded from stepStore.ts (the
Date timestamp is carried as epoch milliseconds). -/
structure Step where
  id : String
  timestamp : Nat
  filePath : String
  diff : DiffInfo
  model : String
  status : StepStatus
  description : Option String
deriving DecidableEq, Repr

/-- In-memory store for step history, embedded from stepStore.ts; the
EventEmitter is modelled by letting every operation report how many times it
fires the change event. -/
structure StepStore where
  steps : List Step
deriving DecidableEq, Repr

/-- Embeds StepStore.addStep: pushes the step and fires the change event
once. -/
def StepStore.addStep (st : StepStore) (s : Step) : StepStore × Nat :=
  (⟨st.steps ++ [s]⟩, 1)

/-- Embeds StepStore.getAllSteps: the value of the fresh copy it returns
(aliasing is modelled separately at the heap level). -/
def StepStore.getAllSteps (st : StepStore) : List Step :=
  st.steps

/-- Embeds StepStore.getStepById: first step with the given id. -/
def StepStore.getStepById (st : StepStore) (id : String) : Option Step :=
  st.steps.find? (fun s => s.id == id)

/-- Updates the status of the first step with the given id, leaving the
others untouched (the source mutates the object found by getStepById). -/
def setStatusFirst : List Step → String → StepStatus → List Step
  | [], _, _ => []
  | s :: ss, id, newStatus =>
    if s.id == id then
      ⟨s.id, s.timestamp, s.filePath, s.diff, s.model, newStatus, s.description⟩ :: ss
    else s :: setStatusFirst ss id newStatus

/-- Embeds StepStore.updateStepStatus: when a step with the id exists its
status is updated and the change event fires once; otherwise nothing
happens. -/
def StepStore.updateStepStatus (st : StepStore) (id : String) (newStatus : StepStatus) :
    StepStore × Nat :=
  match st.steps.find? (fun s => s.id == id) with
  | some _ => (⟨setStatusFirst st.steps id newStatus⟩, 1)
  | none => (st, 0)

/-- Embeds StepStore.removeStep: when a step with the id exists the first
such step is spliced out and the change event fires once; otherwise nothing
happens. -/
def StepStore.removeStep (st : StepStore) (id : String) : StepStore × Nat :=
  if (st.steps.findIdx? (fun s => s.id == id)).isSome then
    (⟨st.steps.eraseP (fun s => s.id == id)⟩, 1)
  else (st, 0)

/-- Embeds StepStore.clear: empties the store and fires the change event
once. -/
def StepStore.clear (_st : StepStore) : StepStore × Nat :=
  (⟨[]⟩, 1)

/-- Embeds StepStore.getStepCount. -/
def StepStore.getStepCount (st : StepStore) : Nat :=
  st.steps.length

/-- Outcome of JSON.parse on an import payload: an array of steps, some
other JSON value, or a parse failure.  JSON.parse itself is a runtime
facility, so importFromJSON is embedded over its outcome. -/
inductive ParsedJson where
  | arr (steps : List Step)
  | nonArray
  | invalid
deriving DecidableEq, Repr

/-- Embeds StepStore.importFromJSON: an array replaces the steps (timestamp
revival is the identity here) and fires the change event once; a non-array
value changes nothing and fires nothing; a JSON parse failure throws without
mutating or firing. -/
def StepStore.importFromJSON (st : StepStore) (v : ParsedJson) :
    Except String (StepStore × Nat) :=
  match v with
  | .arr ss => .ok (⟨ss⟩, 1)
  | .nonArray => .ok (st, 0)
  | .invalid => .error "Invalid JSON format for steps import"

/-- Heap of array cells: models JavaScript array references so that the
aliasing behaviour of getAllSteps (copy versus shared reference) is
expressible; a reference is an index into the heap. -/
structure ArrayHeap where
  cells : List (List Step)
deriving Repr

/-- Reads the array behind a reference (missing references read as
empty). -/
def ArrayHeap.read (h : ArrayHeap) (r : Nat) : List Step :=
  (h.cells[r]?).getD []

/-- Overwrites the array behind a reference. -/
def ArrayHeap.write (h : ArrayHeap) (r : Nat) (v : List Step) : ArrayHeap :=
  ⟨h.cells.set r v⟩

/-- Allocates a fresh array cell, returning its reference. -/
def ArrayHeap.alloc (h : ArrayHeap) (v : List Step) : ArrayHeap × Nat :=
  (⟨h.cells ++ [v]⟩, h.cells.length)

/-- Heap-level embedding of StepStore.getAllSteps: it returns a freshly
allocated array holding a copy of the store's steps (the spread in the
source), not the store's own reference. -/
def getAllStepsRef (h : ArrayHeap) (store : Nat) : ArrayHeap × Nat :=
  h.alloc (h.read store)

/-- Heap-level embedding of StepHistoryProvider.getChildren at the root: it
fetches getAllSteps and reverses the returned array in place to show the
newest step first. -/
def getChildrenRef (h : ArrayHeap) (store : Nat) : ArrayHeap × List Step :=
  let p := getAllStepsRef h store
  let h2 := p.1.write p.2 ((p.1.read p.2).reverse)
  (h2, h2.read p.2)

end StepKit

namespace DiffEngine

/-- Old-side contents distribute over op-sequence concatenation. -/
theorem oldContents_append (xs ys : List EditOp) :
    oldContents (xs ++ ys) = oldContents xs ++ oldContents ys :=
  List.filterMap_append ..

/-- New-side contents distribute over op-sequence concatenation. -/
theorem newContents_append (xs ys : List EditOp) :
    newContents (xs ++ ys) = newContents xs ++ newContents ys :=
  List.filterMap_append ..

/-- Equal contents distribute over op-sequence concatenation. -/
theorem equalContents_append (xs ys : List EditOp) :
    equalContents (xs ++ ys) = equalContents xs ++ equalContents ys :=
  List.filterMap_append ..

/-- The op sequence emitted by computeOps covers the old input exactly. -/
theorem oldContents_computeOps : ∀ i j o n, oldContents (computeOps i j o n) = o := by
  intro i j o n
  induction i, j, o, n using computeOps.induct <;>
    try simp_all [computeOps, oldContents]
  next hne hlt ih =>
    rw [if_neg (Nat.not_le.mpr hlt)]
    simpa using ih

/-- The op sequence emitted by computeOps produces the new input exactly. -/
theorem newContents_computeOps : ∀ i j o n, newContents (computeOps i j o n) = n := by
  intro i j o n
  induction i, j, o, n using computeOps.induct <;>
    try simp_all [computeOps, newContents]
  next hne hlt ih =>
    rw [if_neg (Nat.not_le.mpr hlt)]
    simpa using ih

/-- LCS length against an empty second sequence is zero. -/
theorem lcsLen_nil_right (l : List String) : lcsLen l [] = 0 := by
  cases l <;> simp [lcsLen]

/-- The Equal contents of the emitted op sequence form a subsequence of the
old input. -/
theorem equalContents_computeOps_sublist_old :
    ∀ i j o n, List.Sublist (equalContents (computeOps i j o n)) o := by
  intro i j o n
  induction i, j, o, n using computeOps.induct with
  | case1 => simp [computeOps, equalContents]
  | case2 i j o os ih =>
    simp only [computeOps, equalContents, List.filterMap_cons] at ih ⊢
    exact List.Sublist.cons o ih
  | case3 i j n ns ih =>
    simp only [computeOps, equalContents, List.filterMap_cons] at ih ⊢
    exact ih
  | case4 i j os n ns ih =>
    simp only [computeOps, eq_self_iff_true, if_true]
    simp only [equalContents, List.filterMap_cons] at ih ⊢
    exact List.Sublist.cons₂ n ih
  | case5 i j o os n ns hne hle ih =>
    simp only [computeOps]
    rw [if_neg hne, if_pos hle]
    simp only [equalContents, List.filterMap_cons] at ih ⊢
    exact List.Sublist.cons o ih
  | case6 i j o os n ns hne hnle ih =>
    simp only [computeOps]
    rw [if_neg hne, if_neg hnle]
    simp only [equalContents, List.filterMap_cons] at ih ⊢
    exact ih

/-- The Equal contents of the emitted op sequence form a subsequence of the
new input. -/
theorem equalContents_computeOps_sublist_new :
    ∀ i j o n, List.Sublist (equalContents (computeOps i j o n)) n := by
  intro i j o n
  induction i, j, o, n using computeOps.induct with
  | case1 => simp [computeOps, equalContents]
  | case2 i j o os ih =>
    simp only [computeOps, equalContents, List.filterMap_cons] at ih ⊢
    exact ih
  | case3 i j n ns ih =>
    simp only [computeOps, equalContents, List.filterMap_cons] at ih ⊢
    exact List.Sublist.cons n ih
  | case4 i j os n ns ih =>
    simp only [computeOps, eq_self_iff_true, if_true]
    simp only [equalContents, List.filterMap_cons] at ih ⊢
    exact List.Sublist.cons₂ n ih
  | case5 i j o os n ns hne hle ih =>
    simp only [computeOps]
    rw [if_neg hne, if_pos hle]
    simp only [equalContents, List.filterMap_cons] at ih ⊢
    exact ih
  | case6 i j o os n ns hne hnle ih =>
    simp only [computeOps]
    rw [if_neg hne, if_neg hnle]
    simp only [equalContents, List.filterMap_cons] at ih ⊢
    exact List.Sublist.cons n ih

/-- The number of Equal ops emitted by computeOps is exactly the LCS length
of the two inputs. -/
theorem length_equalContents_computeOps :
    ∀ i j o n, (equalContents (computeOps i j o n)).length = lcsLen o n := by
  intro i j o n
  induction i, j, o, n using computeOps.induct with
  | case1 => simp [computeOps, equalContents, lcsLen]
  | case2 i j o os ih =>
    simp only [computeOps, equalContents, List.filterMap_cons] at ih ⊢
    rw [lcsLen_nil_right] at ih ⊢
    exact ih
  | case3 i j n ns ih =>
    simp only [computeOps, equalContents, List.filterMap_cons] at ih ⊢
    simpa [lcsLen] using ih
  | case4 i j os n ns ih =>
    simp only [computeOps, eq_self_iff_true, if_true]
    simp only [equalContents, List.filterMap_cons, List.length_cons] at ih ⊢
    simp only [lcsLen, eq_self_iff_true, if_true]
    rw [ih]
  | case5 i j o os n ns hne hle ih =>
    simp only [computeOps]
    rw [if_neg hne, if_pos hle]
    simp only [equalContents, List.filterMap_cons] at ih ⊢
    simp only [lcsLen]
    rw [if_neg hne, Nat.max_eq_left hle]
    exact ih
  | case6 i j o os n ns hne hnle ih =>
    simp only [computeOps]
    rw [if_neg hne, if_neg hnle]
    simp only [equalContents, List.filterMap_cons] at ih ⊢
    simp only [lcsLen]
    rw [if_neg hne, Nat.max_eq_right (Nat.not_le.mp hnle).le]
    exact ih

/-- Every common subsequence of two line sequences is at most as long as
their LCS length. -/
theorem le_lcsLen_of_sublists :
    ∀ (o : List String), ∀ (n s : List String),
      List.Sublist s o → List.Sublist s n → s.length ≤ lcsLen o n := by
  intro o
  induction o with
  | nil =>
    intro n s hso _
    rw [List.sublist_nil.mp hso]
    exact Nat.zero_le _
  | cons o os iho =>
    intro n
    induction n with
    | nil =>
      intro s _ hsn
      rw [List.sublist_nil.mp hsn]
      exact Nat.zero_le _
    | cons nn ns ihn =>
      intro s hso hsn
      cases s with
      | nil => exact Nat.zero_le _
      | cons a t =>
        by_cases heq : o = nn
        · simp only [lcsLen]
          rw [if_pos heq]
          cases hso with
          | cons _ hso2 =>
            cases hsn with
            | cons _ hsn2 =>
              have ht : List.Sublist t os := (List.sublist_cons_self a t).trans hso2
              have ht2 : List.Sublist t ns := (List.sublist_cons_self a t).trans hsn2
              have := iho ns t ht ht2
              simp only [List.length_cons]
              omega
            | cons₂ _ hsn2 =>
              have ht : List.Sublist t os := (List.sublist_cons_self nn t).trans hso2
              have := iho ns t ht hsn2
              simp only [List.length_cons]
              omega
          | cons₂ _ hso2 =>
            cases hsn with
            | cons _ hsn2 =>
              have ht2 : List.Sublist t ns := (List.sublist_cons_self o t).trans hsn2
              have := iho ns t hso2 ht2
              simp only [List.length_cons]
              omega
            | cons₂ _ hsn2 =>
              have := iho ns t hso2 hsn2
              simp only [List.length_cons]
              omega
        · simp only [lcsLen]
          rw [if_neg heq]
          cases hso with
          | cons _ hso2 =>
            exact Nat.le_trans (iho (nn :: ns) (a :: t) hso2 hsn) (Nat.le_max_left _ _)
          | cons₂ _ hso2 =>
            cases hsn with
            | cons _ hsn2 =>
              exact Nat.le_trans
                (ihn (o :: t) (List.Sublist.cons₂ o hso2) hsn2) (Nat.le_max_right _ _)
            | cons₂ _ hsn2 => exact absurd rfl heq

/-- Value of hunkOldStart0 on a built hunk: it recovers the 0-based old
position the hunk was built at. -/
theorem hunkOldStart0_mkHunk (i j : Nat) (l : List EditOp) :
    hunkOldStart0 (mkHunk i j l) = i := by
  simp only [hunkOldStart0, mkHunk]
  by_cases h : oldLen l = 0 <;> simp [h]

/-- Declared old-side count of a built hunk. -/
theorem mkHunk_oldCount (i j : Nat) (l : List EditOp) :
    (mkHunk i j l).oldCount = oldLen l := rfl

/-- Ops of a built hunk. -/
theorem mkHunk_ops (i j : Nat) (l : List EditOp) :
    (mkHunk i j l).ops = l := rfl

/-- On a run of Equal ops the old side and the new side coincide. -/
theorem equalRun_old_eq_new :
    ∀ {l : List EditOp}, (∀ x ∈ l, isEqualOp x = true) → oldContents l = newContents l := by
  intro l
  induction l with
  | nil => intro _; rfl
  | cons op tl ih =>
    intro h
    have hop := h op (List.mem_cons_self op tl)
    have htl := ih (fun x hx => h x (List.mem_cons_of_mem op hx))
    cases op with
    | equal a b s =>
      simp only [oldContents, newContents, List.filterMap_cons] at htl ⊢
      rw [htl]
    | delete a s => simp [isEqualOp] at hop
    | insert b s => simp [isEqualOp] at hop

/-- A run of Equal ops covers as many old lines as its length. -/
theorem equalRun_oldLen :
    ∀ {l : List EditOp}, (∀ x ∈ l, isEqualOp x = true) → (oldContents l).length = l.length := by
  intro l
  induction l with
  | nil => intro _; rfl
  | cons op tl ih =>
    intro h
    have hop := h op (List.mem_cons_self op tl)
    have htl := ih (fun x hx => h x (List.mem_cons_of_mem op hx))
    cases op with
    | equal a b s =>
      simp only [oldContents, List.filterMap_cons, List.length_cons] at htl ⊢
      rw [htl]
    | delete a s => simp [isEqualOp] at hop
    | insert b s => simp [isEqualOp] at hop

/-- Unfolds collectFrom when the scan finds no further change run: the hunk
is closed with clipped trailing context. -/
theorem collectFrom_eq_close_last (c i j : Nat) (acc : List EditOp) (op : EditOp)
    (tl ch eqR : List EditOp)
    (hch : List.takeWhile (fun o => !isEqualOp o) tl = ch)
    (heqR : List.takeWhile isEqualOp (List.dropWhile (fun o => !isEqualOp o) tl) = eqR)
    (hrest2 : List.dropWhile isEqualOp (List.dropWhile (fun o => !isEqualOp o) tl) = []) :
    collectFrom c i j acc (op :: tl) = [mkHunk i j (acc ++ op :: ch ++ eqR.take c)] := by
  rw [collectFrom.eq_2, hrest2, hch, heqR]

/-- Unfolds collectFrom when the next change run is within an overlapping
context window: the Equal gap is absorbed and the hunk keeps growing. -/
theorem collectFrom_eq_merge (c i j : Nat) (acc : List EditOp) (op : EditOp)
    (tl ch eqR : List EditOp) (r : EditOp) (rs : List EditOp)
    (hch : List.takeWhile (fun o => !isEqualOp o) tl = ch)
    (heqR : List.takeWhile isEqualOp (List.dropWhile (fun o => !isEqualOp o) tl) = eqR)
    (hrest2 : List.dropWhile isEqualOp (List.dropWhile (fun o => !isEqualOp o) tl) = r :: rs)
    (hlt : eqR.length < 2 * c) :
    collectFrom c i j acc (op :: tl) =
      collectFrom c i j (acc ++ op :: ch ++ eqR) (r :: rs) := by
  rw [collectFrom.eq_2, hrest2, hch, heqR]
  simp only [if_pos hlt]

/-- Unfolds collectFrom when the next change run is beyond the context
window: the hunk is closed with trailing context and collection restarts at
the next change with its leading context. -/
theorem collectFrom_eq_close (c i j : Nat) (acc : List EditOp) (op : EditOp)
    (tl ch eqR : List EditOp) (r : EditOp) (rs : List EditOp)
    (hch : List.takeWhile (fun o => !isEqualOp o) tl = ch)
    (heqR : List.takeWhile isEqualOp (List.dropWhile (fun o => !isEqualOp o) tl) = eqR)
    (hrest2 : List.dropWhile isEqualOp (List.dropWhile (fun o => !isEqualOp o) tl) = r :: rs)
    (hge : ¬ eqR.length < 2 * c) :
    collectFrom c i j acc (op :: tl) =
      mkHunk i j (acc ++ op :: ch ++ eqR.take c) ::
        collectFrom c (i + oldLen (acc ++ op :: ch ++ eqR.take c) + (eqR.length - 2 * c))
          (j + newLen (acc ++ op :: ch ++ eqR.take c) + (eqR.length - 2 * c))
          (eqR.drop (eqR.length - c)) (r :: rs) := by
  rw [collectFrom.eq_2, hrest2, hch, heqR]
  simp only [if_neg hge]

/-- Taking exactly the length of the left part of an append gives the left
part. -/
theorem take_append_eq {α : Type _} (X Y : List α) (n : Nat) (h : X.length = n) :
    (X ++ Y).take n = X := by
  subst h
  exact List.take_left X Y

/-- Dropping exactly the length of the left part of an append gives the
right part. -/
theorem drop_append_eq {α : Type _} (X Y : List α) (n : Nat) (h : X.length = n) :
    (X ++ Y).drop n = Y := by
  subst h
  exact List.drop_left X Y

/-- Old-side contents distribute over a cons followed by an append. -/
theorem oldContents_cons_append (op : EditOp) (xs ys : List EditOp) :
    oldContents (op :: (xs ++ ys)) = oldContents (op :: xs) ++ oldContents ys := by
  cases op <;> simp [oldContents, List.filterMap_cons, List.filterMap_append]

/-- New-side contents distribute over a cons followed by an append. -/
theorem newContents_cons_append (op : EditOp) (xs ys : List EditOp) :
    newContents (op :: (xs ++ ys)) = newContents (op :: xs) ++ newContents ys := by
  cases op <;> simp [newContents, List.filterMap_cons, List.filterMap_append]

/-- Central round-trip invariant of the grouping stage: replaying the hunks
collected from a pending hunk start against an old sequence that agrees with
the remaining ops reproduces the new side of those ops. -/
theorem applyHunks_collectFrom (c : Nat) :
    ∀ (N : Nat) (ops : List EditOp), ops.length ≤ N → ops ≠ [] →
      ∀ (i j pos : Nat) (acc : List EditOp) (old : List String),
        pos ≤ i → i ≤ old.length → old.drop i = oldContents (acc ++ ops) →
        applyHunks old pos (collectFrom c i j acc ops) =
          .ok ((old.drop pos).take (i - pos) ++ newContents (acc ++ ops)) := by
  intro N
  induction N with
  | zero =>
    intro ops hlen hne
    cases ops with
    | nil => exact absurd rfl hne
    | cons op tl => simp at hlen
  | succ N ihN =>
    intro ops hlen hne i j pos acc old hpos hi hdrop
    cases ops with
    | nil => exact absurd rfl hne
    | cons op tl =>
      obtain ⟨ch, hch⟩ : ∃ l, List.takeWhile (fun o => !isEqualOp o) tl = l := ⟨_, rfl⟩
      obtain ⟨eqR, heqR⟩ :
          ∃ l, List.takeWhile isEqualOp (List.dropWhile (fun o => !isEqualOp o) tl) = l :=
        ⟨_, rfl⟩
      have heqR_all : ∀ x ∈ eqR, isEqualOp x = true := by
        intro x hx
        rw [← heqR] at hx
        exact List.mem_takeWhile_imp hx
      cases hrest2 : List.dropWhile isEqualOp (List.dropWhile (fun o => !isEqualOp o) tl) with
      | nil =>
        have htl : tl = ch ++ eqR := by
          have h1 := List.takeWhile_append_dropWhile (fun o => !isEqualOp o) tl
          have h2 := List.takeWhile_append_dropWhile isEqualOp
            (List.dropWhile (fun o => !isEqualOp o) tl)
          rw [hrest2, List.append_nil, heqR] at h2
          rw [hch, ← h2] at h1
          exact h1.symm
        rw [collectFrom_eq_close_last c i j acc op tl ch eqR hch heqR hrest2]
        have hsplit : acc ++ op :: tl = (acc ++ op :: ch ++ eqR.take c) ++ eqR.drop c := by
          conv_lhs => rw [htl, ← List.take_append_drop c eqR]
          simp [List.append_assoc]
        have hdropA : old.drop i =
            oldContents (acc ++ op :: ch ++ eqR.take c) ++ oldContents (eqR.drop c) := by
          rw [hdrop, hsplit, oldContents_append]
        have htail_all : ∀ x ∈ eqR.drop c, isEqualOp x = true :=
          fun x hx => heqR_all x (List.mem_of_mem_drop hx)
        have hrest_eq :
            old.drop (i + oldLen (acc ++ op :: ch ++ eqR.take c)) = newContents (eqR.drop c) := by
          rw [← List.drop_drop, hdropA]
          simp only [oldLen]
          rw [List.drop_left]
          exact equalRun_old_eq_new htail_all
        have hnew : newContents (acc ++ op :: tl) =
            newContents (acc ++ op :: ch ++ List.take c eqR) ++ newContents (List.drop c eqR) := by
          rw [hsplit, newContents_append]
        simp only [applyHunks, hunkOldStart0_mkHunk, mkHunk_oldCount, mkHunk_ops]
        rw [if_pos (by rw [hdropA]; simp only [oldLen]; exact List.take_left _ _)]
        rw [hnew]
        simp only [hrest_eq]
        simp [List.append_assoc]
      | cons r rs =>
        have hlen2 : (r :: rs).length ≤ N := by
          have h3 : (r :: rs).length ≤ tl.length := by
            rw [← hrest2]
            exact le_trans (List.dropWhile_sublist _).length_le
              (List.dropWhile_sublist _).length_le
          simp only [List.length_cons] at hlen h3 ⊢
          omega
        have htl2 : tl = ch ++ (eqR ++ (r :: rs)) := by
          have h1 := List.takeWhile_append_dropWhile (fun o => !isEqualOp o) tl
          have h2 := List.takeWhile_append_dropWhile isEqualOp
            (List.dropWhile (fun o => !isEqualOp o) tl)
          rw [hrest2, heqR] at h2
          rw [hch, ← h2] at h1
          exact h1.symm
        by_cases hmerge : eqR.length < 2 * c
        · rw [collectFrom_eq_merge c i j acc op tl ch eqR r rs hch heqR hrest2 hmerge]
          have hacc : acc ++ op :: tl = (acc ++ op :: ch ++ eqR) ++ (r :: rs) := by
            rw [htl2]
            simp [List.append_assoc]
          rw [hacc] at hdrop ⊢
          exact ihN (r :: rs) hlen2 (List.cons_ne_nil r rs) i j pos
            (acc ++ op :: ch ++ eqR) old hpos hi hdrop
        · rw [collectFrom_eq_close c i j acc op tl ch eqR r rs hch heqR hrest2 hmerge]
          have hg : 2 * c ≤ eqR.length := Nat.le_of_not_lt hmerge
          have hctx2 : (eqR.drop c).drop (eqR.length - 2 * c) = eqR.drop (eqR.length - c) := by
            rw [List.drop_drop]
            congr 1
            omega
          have heqRsplit : eqR =
              eqR.take c ++ ((eqR.drop c).take (eqR.length - 2 * c) ++
                eqR.drop (eqR.length - c)) := by
            rw [← hctx2, List.take_append_drop]
            exact (List.take_append_drop c eqR).symm
          have hsplit : acc ++ op :: tl =
              (acc ++ op :: ch ++ eqR.take c) ++
                ((eqR.drop c).take (eqR.length - 2 * c) ++
                  (eqR.drop (eqR.length - c) ++ (r :: rs))) := by
            conv_lhs => rw [htl2, heqRsplit]
            simp [List.append_assoc]
          have hdropA : old.drop i =
              oldContents (acc ++ op :: ch ++ eqR.take c) ++
                (oldContents ((eqR.drop c).take (eqR.length - 2 * c)) ++
                  (oldContents (eqR.drop (eqR.length - c)) ++ oldContents (r :: rs))) := by
            rw [hdrop, hsplit]
            simp only [oldContents_append, List.append_assoc]
          have hmid_all : ∀ x ∈ (eqR.drop c).take (eqR.length - 2 * c), isEqualOp x = true :=
            fun x hx => heqR_all x (List.mem_of_mem_drop (List.mem_of_mem_take hx))
          have hctx2_all : ∀ x ∈ eqR.drop (eqR.length - c), isEqualOp x = true :=
            fun x hx => heqR_all x (List.mem_of_mem_drop hx)
          have hmidlen :
              (oldContents ((eqR.drop c).take (eqR.length - 2 * c))).length =
                eqR.length - 2 * c := by
            rw [equalRun_oldLen hmid_all]
            simp only [List.length_take, List.length_drop]
            omega
          have hdrop2 : old.drop (i + oldLen (acc ++ op :: ch ++ eqR.take c)) =
              oldContents ((eqR.drop c).take (eqR.length - 2 * c)) ++
                (oldContents (eqR.drop (eqR.length - c)) ++ oldContents (r :: rs)) := by
            rw [← List.drop_drop, hdropA]
            simp only [oldLen]
            rw [List.drop_left]
          have hdrop3 :
              old.drop ((i + oldLen (acc ++ op :: ch ++ eqR.take c)) + (eqR.length - 2 * c)) =
                oldContents (eqR.drop (eqR.length - c) ++ (r :: rs)) := by
            rw [← List.drop_drop, hdrop2, drop_append_eq _ _ _ hmidlen, oldContents_append]
          have hLL : oldLen (acc ++ op :: ch ++ eqR.take c) =
              (oldContents (acc ++ op :: ch ++ eqR.take c)).length := rfl
          have hi3 : (i + oldLen (acc ++ op :: ch ++ eqR.take c)) + (eqR.length - 2 * c) ≤
              old.length := by
            have hc3 := congrArg List.length hdropA
            simp only [List.length_drop, List.length_append] at hc3
            omega
          have hIH := ihN (r :: rs) hlen2 (List.cons_ne_nil r rs)
            ((i + oldLen (acc ++ op :: ch ++ eqR.take c)) + (eqR.length - 2 * c))
            (j + newLen (acc ++ op :: ch ++ eqR.take c) + (eqR.length - 2 * c))
            (i + oldLen (acc ++ op :: ch ++ eqR.take c))
            (eqR.drop (eqR.length - c)) old (by omega) hi3 hdrop3
          have hgap2 : (old.drop (i + oldLen (acc ++ op :: ch ++ eqR.take c))).take
              (((i + oldLen (acc ++ op :: ch ++ eqR.take c)) + (eqR.length - 2 * c)) -
                (i + oldLen (acc ++ op :: ch ++ eqR.take c))) =
              newContents ((eqR.drop c).take (eqR.length - 2 * c)) := by
            rw [show ((i + oldLen (acc ++ op :: ch ++ eqR.take c)) + (eqR.length - 2 * c)) -
                (i + oldLen (acc ++ op :: ch ++ eqR.take c)) = eqR.length - 2 * c from by omega]
            rw [hdrop2, take_append_eq _ _ _ hmidlen]
            exact equalRun_old_eq_new hmid_all
          have hnew2 : newContents (acc ++ op :: tl) =
              newContents (acc ++ op :: ch ++ eqR.take c) ++
                (newContents ((eqR.drop c).take (eqR.length - 2 * c)) ++
                  newContents (eqR.drop (eqR.length - c) ++ (r :: rs))) := by
            rw [hsplit]
            simp [newContents_cons_append, newContents_append, List.append_assoc]
          simp only [applyHunks, hunkOldStart0_mkHunk, mkHunk_oldCount, mkHunk_ops]
          rw [if_pos (by rw [hdropA]; simp only [oldLen]; exact List.take_left _ _)]
          rw [hIH, hnew2]
          simp only [hgap2]
          simp [newContents_append, List.append_assoc]

/-- Applying the diff computed between two line sequences to the first
sequence reproduces the second, for every context width. -/
theorem apply_compute (old new : List String) (c : Nat) :
    apply old (compute old new c) = .ok new := by
  show applyHunks old 0 (groupOps c 0 0 (computeOps 0 0 old new)) = .ok new
  obtain ⟨ops0, hops0⟩ : ∃ l, computeOps 0 0 old new = l := ⟨_, rfl⟩
  have hops_old : oldContents ops0 = old := by
    rw [← hops0]
    exact oldContents_computeOps 0 0 old new
  have hops_new : newContents ops0 = new := by
    rw [← hops0]
    exact newContents_computeOps 0 0 old new
  rw [hops0]
  obtain ⟨pre, hpre⟩ : ∃ l, List.takeWhile isEqualOp ops0 = l := ⟨_, rfl⟩
  have hpre_all : ∀ x ∈ pre, isEqualOp x = true := by
    intro x hx
    rw [← hpre] at hx
    exact List.mem_takeWhile_imp hx
  simp only [groupOps]
  cases hrest : List.dropWhile isEqualOp ops0 with
  | nil =>
    have hops0eq : ops0 = pre := by
      have h1 := List.takeWhile_append_dropWhile isEqualOp ops0
      rw [hrest, List.append_nil, hpre] at h1
      exact h1.symm
    simp only [applyHunks, List.drop_zero]
    rw [show old = new from by
      rw [← hops_old, ← hops_new, hops0eq]
      exact equalRun_old_eq_new hpre_all]
  | cons op tl =>
    rw [hpre]
    simp only [Nat.zero_add]
    have hops0eq : ops0 = pre ++ (op :: tl) := by
      have h1 := List.takeWhile_append_dropWhile isEqualOp ops0
      rw [hrest, hpre] at h1
      exact h1.symm
    have htake_all : ∀ x ∈ pre.take (pre.length - c), isEqualOp x = true :=
      fun x hx => hpre_all x (List.mem_of_mem_take hx)
    have hdrop_all : ∀ x ∈ pre.drop (pre.length - c), isEqualOp x = true :=
      fun x hx => hpre_all x (List.mem_of_mem_drop hx)
    have htakelen : (oldContents (pre.take (pre.length - c))).length = pre.length - c := by
      rw [equalRun_oldLen htake_all]
      simp only [List.length_take]
      omega
    have hdecomp : old = oldContents (pre.take (pre.length - c)) ++
        oldContents (pre.drop (pre.length - c) ++ (op :: tl)) := by
      rw [← hops_old, hops0eq]
      conv_lhs => rw [← List.take_append_drop (pre.length - c) pre]
      rw [List.append_assoc, oldContents_append]
    have hlenold : pre.length - c ≤ old.length := by
      have hc := congrArg List.length hdecomp
      simp only [List.length_append] at hc
      omega
    have hdropS : old.drop (pre.length - c) =
        oldContents (pre.drop (pre.length - c) ++ (op :: tl)) := by
      conv_lhs => rw [hdecomp]
      exact drop_append_eq _ _ _ htakelen
    have hmain := applyHunks_collectFrom c (op :: tl).length (op :: tl) le_rfl
      (List.cons_ne_nil op tl) (pre.length - c) (pre.length - c) 0
      (pre.drop (pre.length - c)) old (Nat.zero_le _) hlenold hdropS
    rw [hmain]
    congr 1
    rw [List.drop_zero, Nat.sub_zero]
    have htake_eq : old.take (pre.length - c) = newContents (pre.take (pre.length - c)) := by
      conv_lhs => rw [hdecomp]
      rw [take_append_eq _ _ _ htakelen]
      exact equalRun_old_eq_new htake_all
    rw [htake_eq, ← newContents_append, ← List.append_assoc, List.take_append_drop,
      ← hops0eq, hops_new]

/-- The op sequence compute emits for identical inputs consists solely of
Equal ops. -/
theorem computeOps_self_all_equal :
    ∀ (i j : Nat) (x : List String), ∀ op ∈ computeOps i j x x, isEqualOp op = true := by
  intro i j x
  induction x generalizing i j with
  | nil =>
    intro op hop
    simp [computeOps] at hop
  | cons a t ih =>
    intro op hop
    simp only [computeOps, eq_self_iff_true, if_true] at hop
    cases hop with
    | head => rfl
    | tail _ hmem => exact ih (i + 1) (j + 1) op hmem

/-- Every hunk produced by the collection loop is a built hunk. -/
theorem mem_collectFrom_shape (c : Nat) :
    ∀ (N : Nat) (ops : List EditOp), ops.length ≤ N →
      ∀ (i j : Nat) (acc : List EditOp) (h : Hunk), h ∈ collectFrom c i j acc ops →
        ∃ a b l, h = mkHunk a b l := by
  intro N
  induction N with
  | zero =>
    intro ops hlen i j acc h hmem
    cases ops with
    | nil => simp [collectFrom] at hmem
    | cons op tl => simp at hlen
  | succ N ihN =>
    intro ops hlen i j acc h hmem
    cases ops with
    | nil => simp [collectFrom] at hmem
    | cons op tl =>
      obtain ⟨ch, hch⟩ : ∃ l, List.takeWhile (fun o => !isEqualOp o) tl = l := ⟨_, rfl⟩
      obtain ⟨eqR, heqR⟩ :
          ∃ l, List.takeWhile isEqualOp (List.dropWhile (fun o => !isEqualOp o) tl) = l :=
        ⟨_, rfl⟩
      cases hrest2 : List.dropWhile isEqualOp (List.dropWhile (fun o => !isEqualOp o) tl) with
      | nil =>
        rw [collectFrom_eq_close_last c i j acc op tl ch eqR hch heqR hrest2] at hmem
        cases hmem with
        | head => exact ⟨i, j, _, rfl⟩
        | tail _ hmem2 => cases hmem2
      | cons r rs =>
        have hlen2 : (r :: rs).length ≤ N := by
          have h3 : (r :: rs).length ≤ tl.length := by
            rw [← hrest2]
            exact le_trans (List.dropWhile_sublist _).length_le
              (List.dropWhile_sublist _).length_le
          simp only [List.length_cons] at hlen h3 ⊢
          omega
        by_cases hmerge : eqR.length < 2 * c
        · rw [collectFrom_eq_merge c i j acc op tl ch eqR r rs hch heqR hrest2 hmerge] at hmem
          exact ihN (r :: rs) hlen2 i j _ h hmem
        · rw [collectFrom_eq_close c i j acc op tl ch eqR r rs hch heqR hrest2 hmerge] at hmem
          cases hmem with
          | head => exact ⟨i, j, _, rfl⟩
          | tail _ hmem2 => exact ihN (r :: rs) hlen2 _ _ _ h hmem2

/-- Every hunk produced by the grouping stage is a built hunk. -/
theorem mem_groupOps_shape (c i j : Nat) (ops : List EditOp) (h : Hunk)
    (hmem : h ∈ groupOps c i j ops) : ∃ a b l, h = mkHunk a b l := by
  rw [groupOps] at hmem
  cases hrest : List.dropWhile isEqualOp ops with
  | nil =>
    rw [hrest] at hmem
    simp at hmem
  | cons op tl =>
    rw [hrest] at hmem
    exact mem_collectFrom_shape c (op :: tl).length (op :: tl) le_rfl _ _ _ h hmem

/-- The old-side line tally of an op sequence equals its Equal count plus
its Delete count. -/
theorem oldLen_eq_counts (l : List EditOp) :
    oldLen l = l.countP isEqualOp + l.countP isDeleteOp := by
  induction l with
  | nil => rfl
  | cons op tl ih =>
    simp only [oldLen, oldContents] at ih ⊢
    cases op <;>
      simp [List.filterMap_cons, List.countP_cons, isEqualOp, isDeleteOp, ih] <;>
      omega

/-- The new-side line tally of an op sequence equals its Equal count plus
its Insert count. -/
theorem newLen_eq_counts (l : List EditOp) :
    newLen l = l.countP isEqualOp + l.countP isInsertOp := by
  induction l with
  | nil => rfl
  | cons op tl ih =>
    simp only [newLen, newContents] at ih ⊢
    cases op <;>
      simp [List.filterMap_cons, List.countP_cons, isEqualOp, isInsertOp, ih] <;>
      omega

/-- A successful replay checked every hunk's recorded old side against the
live sequence. -/
theorem applyHunks_ok_regions :
    ∀ (hs : List Hunk) (old r : List String) (pos : Nat),
      applyHunks old pos hs = .ok r →
      ∀ h ∈ hs, (old.drop (hunkOldStart0 h)).take h.oldCount = oldContents h.ops := by
  intro hs
  induction hs with
  | nil =>
    intro old r pos _ h hmem
    simp at hmem
  | cons h2 t ih =>
    intro old r pos happ h hmem
    simp only [applyHunks] at happ
    by_cases hcond :
        (old.drop (hunkOldStart0 h2)).take h2.oldCount = oldContents h2.ops
    · rw [if_pos hcond] at happ
      cases hmem with
      | head => exact hcond
      | tail _ hmem2 =>
        cases hrec : applyHunks old (hunkOldStart0 h2 + h2.oldCount) t with
        | ok r2 => exact ih old r2 _ hrec h hmem2
        | error e =>
          rw [hrec] at happ
          simp at happ
    · rw [if_neg hcond] at happ
      simp at happ

/-- Every failure of the replay loop is a conflict failure. -/
theorem applyHunks_error_conflict :
    ∀ (hs : List Hunk) (old : List String) (pos : Nat) (e : DiffError),
      applyHunks old pos hs = .error e → e = .diffConflict := by
  intro hs
  induction hs with
  | nil =>
    intro old pos e happ
    simp [applyHunks] at happ
  | cons h2 t ih =>
    intro old pos e happ
    simp only [applyHunks] at happ
    by_cases hcond :
        (old.drop (hunkOldStart0 h2)).take h2.oldCount = oldContents h2.ops
    · rw [if_pos hcond] at happ
      cases hrec : applyHunks old (hunkOldStart0 h2 + h2.oldCount) t with
      | ok r2 =>
        rw [hrec] at happ
        simp at happ
      | error e2 =>
        rw [hrec] at happ
        simp at happ
        rw [← happ]
        exact ih old _ e2 hrec
    · rw [if_neg hcond] at happ
      simp at happ
      rw [happ]

/-- Reading a position inside a matched window goes through the recorded
old-side lines. -/
theorem getElem?_of_region {old X : List String} {st cnt p : Nat}
    (hreg : (old.drop st).take cnt = X) (hlo : st ≤ p) (hhi : p < st + cnt) :
    old[p]? = X[p - st]? := by
  rw [← hreg, List.getElem?_take_of_lt (by omega), List.getElem?_drop]
  congr 1
  omega

end DiffEngine

/-- C1: for every pair of input strings, applying the diff computed between
them (with the default three context lines) to the old line sequence
reproduces the new line sequence. -/
theorem C1_apply_compute_round_trip (o n : String) :
    DiffEngine.apply (DiffEngine.splitLines o)
        (DiffEngine.compute (DiffEngine.splitLines o) (DiffEngine.splitLines n) 3) =
      .ok (DiffEngine.splitLines n) :=
  DiffEngine.apply_compute (DiffEngine.splitLines o) (DiffEngine.splitLines n) 3


/-- C2: compute aligns the two line sequences by a longest common
subsequence: the Equal ops emitted by its backtracking stage (computeOps,
from which compute builds its hunks) form a common subsequence of the two
inputs, and no common subsequence is longer. -/
theorem C2_compute_equal_ops_form_lcs (o n : List String) :
    List.Sublist (DiffEngine.equalContents (DiffEngine.computeOps 0 0 o n)) o ∧
    List.Sublist (DiffEngine.equalContents (DiffEngine.computeOps 0 0 o n)) n ∧
    ∀ s : List String, List.Sublist s o → List.Sublist s n →
      s.length ≤ (DiffEngine.equalContents (DiffEngine.computeOps 0 0 o n)).length :=
  ⟨DiffEngine.equalContents_computeOps_sublist_old 0 0 o n,
   DiffEngine.equalContents_computeOps_sublist_new 0 0 o n,
   fun s h1 h2 => by
     rw [DiffEngine.length_equalContents_computeOps]
     exact DiffEngine.le_lcsLen_of_sublists o n s h1 h2⟩

/-- Witness for C2 at a concrete input: the common subsequence x of
[a, x] and [x, b] is no longer than the Equal ops emitted there. -/
theorem C2_compute_equal_ops_form_lcs_witness :
    (["x"] : List String).length ≤
      (DiffEngine.equalContents (DiffEngine.computeOps 0 0 ["a", "x"] ["x", "b"])).length :=
  (C2_compute_equal_ops_form_lcs ["a", "x"] ["x", "b"]).2.2 ["x"]
    (List.Sublist.cons "a" (List.Sublist.cons₂ "x" List.Sublist.slnil))
    (List.Sublist.cons₂ "x" (List.Sublist.cons "b" List.Sublist.slnil))

/-- C3: a diff computed between two sequences conflicts, rather than
applying, against any live sequence that disagrees with the original old
sequence at a line inside some hunk's old-side window. -/
theorem C3_apply_detects_mutation (o n old2 : List String) (c p : Nat) (h : DiffEngine.Hunk)
    (hmem : h ∈ (DiffEngine.compute o n c).hunks)
    (hlo : DiffEngine.hunkOldStart0 h ≤ p)
    (hhi : p < DiffEngine.hunkOldStart0 h + h.oldCount)
    (hdiff : old2[p]? ≠ o[p]?) :
    DiffEngine.apply old2 (DiffEngine.compute o n c) = .error .diffConflict := by
  cases happ : DiffEngine.apply old2 (DiffEngine.compute o n c) with
  | error e =>
    rw [DiffEngine.applyHunks_error_conflict (DiffEngine.compute o n c).hunks old2 0 e happ]
  | ok r =>
    exfalso
    apply hdiff
    have hreg2 := DiffEngine.applyHunks_ok_regions (DiffEngine.compute o n c).hunks old2 r 0
      happ h hmem
    have hok := DiffEngine.apply_compute o n c
    have hreg1 := DiffEngine.applyHunks_ok_regions (DiffEngine.compute o n c).hunks o n 0
      hok h hmem
    rw [DiffEngine.getElem?_of_region hreg2 hlo hhi,
      DiffEngine.getElem?_of_region hreg1 hlo hhi]

/-- Witness for C3 at a concrete input: mutating line two of the original
inside the single hunk's window makes apply fail with a conflict. -/
theorem C3_apply_detects_mutation_witness :
    DiffEngine.apply ["a", "Q", "c"]
        (DiffEngine.compute ["a", "b", "c"] ["a", "x", "c"] 3) =
      .error .diffConflict :=
  C3_apply_detects_mutation ["a", "b", "c"] ["a", "x", "c"] ["a", "Q", "c"] 3 1
    (DiffEngine.Hunk.mk 1 3 1 3
      [DiffEngine.EditOp.equal 0 0 "a", DiffEngine.EditOp.delete 1 "b",
        DiffEngine.EditOp.insert 1 "x", DiffEngine.EditOp.equal 2 2 "c"])
    (by
      rw [show (DiffEngine.compute ["a", "b", "c"] ["a", "x", "c"] 3).hunks =
        [DiffEngine.Hunk.mk 1 3 1 3
          [DiffEngine.EditOp.equal 0 0 "a", DiffEngine.EditOp.delete 1 "b",
            DiffEngine.EditOp.insert 1 "x", DiffEngine.EditOp.equal 2 2 "c"]] from by
        norm_num [DiffEngine.compute, DiffEngine.computeOps, DiffEngine.lcsLen,
        DiffEngine.groupOps, DiffEngine.collectFrom, DiffEngine.mkHunk, DiffEngine.oldLen,
        DiffEngine.newLen, DiffEngine.oldContents, DiffEngine.newContents,
        DiffEngine.isEqualOp, List.takeWhile, List.dropWhile, List.filterMap_cons]]
      exact List.mem_singleton.mpr rfl)
    (by decide) (by decide) (by decide)

/-- C6: identical inputs produce a diff with no hunks at all, for every
context width. -/
theorem C6_compute_identity_no_hunks (x : List String) (c : Nat) :
    (DiffEngine.compute x x c).hunks = [] := by
  show DiffEngine.groupOps c 0 0 (DiffEngine.computeOps 0 0 x x) = []
  rw [DiffEngine.groupOps]
  rw [List.dropWhile_eq_nil_iff.mpr (DiffEngine.computeOps_self_all_equal 0 0 x)]

/-- C7: in every hunk of every computed diff, oldCount is the number of
Equal plus Delete ops of the hunk and newCount is the number of Equal plus
Insert ops. -/
theorem C7_hunk_counts (o n : List String) (c : Nat) (h : DiffEngine.Hunk)
    (hmem : h ∈ (DiffEngine.compute o n c).hunks) :
    h.oldCount = h.ops.countP DiffEngine.isEqualOp + h.ops.countP DiffEngine.isDeleteOp ∧
    h.newCount = h.ops.countP DiffEngine.isEqualOp + h.ops.countP DiffEngine.isInsertOp := by
  obtain ⟨a, b, l, rfl⟩ := DiffEngine.mem_groupOps_shape c 0 0
    (DiffEngine.computeOps 0 0 o n) h hmem
  exact ⟨DiffEngine.oldLen_eq_counts l, DiffEngine.newLen_eq_counts l⟩

/-- Witness for C7 at a concrete input: the one hunk computed between [a]
and [b] declares counts matching its op tallies. -/
theorem C7_hunk_counts_witness :
    (DiffEngine.Hunk.mk 1 1 1 1
        [DiffEngine.EditOp.delete 0 "a", DiffEngine.EditOp.insert 0 "b"]).oldCount =
      [DiffEngine.EditOp.delete 0 "a",
        DiffEngine.EditOp.insert 0 "b"].countP DiffEngine.isEqualOp +
      [DiffEngine.EditOp.delete 0 "a",
        DiffEngine.EditOp.insert 0 "b"].countP DiffEngine.isDeleteOp ∧
    (DiffEngine.Hunk.mk 1 1 1 1
        [DiffEngine.EditOp.delete 0 "a", DiffEngine.EditOp.insert 0 "b"]).newCount =
      [DiffEngine.EditOp.delete 0 "a",
        DiffEngine.EditOp.insert 0 "b"].countP DiffEngine.isEqualOp +
      [DiffEngine.EditOp.delete 0 "a",
        DiffEngine.EditOp.insert 0 "b"].countP DiffEngine.isInsertOp :=
  C7_hunk_counts ["a"] ["b"] 3
    (DiffEngine.Hunk.mk 1 1 1 1
      [DiffEngine.EditOp.delete 0 "a", DiffEngine.EditOp.insert 0 "b"])
    (by
      rw [show (DiffEngine.compute ["a"] ["b"] 3).hunks =
        [DiffEngine.Hunk.mk 1 1 1 1
          [DiffEngine.EditOp.delete 0 "a", DiffEngine.EditOp.insert 0 "b"]] from by
        norm_num [DiffEngine.compute, DiffEngine.computeOps, DiffEngine.lcsLen,
        DiffEngine.groupOps, DiffEngine.collectFrom, DiffEngine.mkHunk, DiffEngine.oldLen,
        DiffEngine.newLen, DiffEngine.oldContents, DiffEngine.newContents,
        DiffEngine.isEqualOp, List.takeWhile, List.dropWhile, List.filterMap_cons]]
      exact List.mem_singleton.mpr rfl)

/-- C8 counterexample: on old [a, b, c] and new [a, x, c] with the default
three context lines, compute does not return a hunk with oldStart 2,
oldCount 1, newStart 2, newCount 1 as the claim states: the context lines
are part of the hunk, so the real header is oldStart 1, oldCount 3,
newStart 1, newCount 3. -/
theorem C8_concrete_scenario_counterexample :
    (DiffEngine.compute ["a", "b", "c"] ["a", "x", "c"] 3).hunks.map
        (fun h => (h.oldStart, h.oldCount, h.newStart, h.newCount)) ≠
      [(2, 1, 2, 1)] := by
  norm_num [DiffEngine.compute, DiffEngine.computeOps, DiffEngine.lcsLen,
        DiffEngine.groupOps, DiffEngine.collectFrom, DiffEngine.mkHunk, DiffEngine.oldLen,
        DiffEngine.newLen, DiffEngine.oldContents, DiffEngine.newContents,
        DiffEngine.isEqualOp, List.takeWhile, List.dropWhile, List.filterMap_cons]

/-- C8 amended: on old [a, b, c] and new [a, x, c] with the default three
context lines, compute returns exactly one hunk with oldStart 1, oldCount 3,
newStart 1, newCount 3, ops Equal a, Delete b, Insert x, Equal c (the change
ops Delete b and Insert x with their context lines a and c), and stats one
addition, one deletion, two unchanged. -/
theorem C8_concrete_scenario_amended :
    DiffEngine.compute ["a", "b", "c"] ["a", "x", "c"] 3 =
      DiffEngine.UnifiedDiff.mk "a/file" "b/file"
        [DiffEngine.Hunk.mk 1 3 1 3
          [DiffEngine.EditOp.equal 0 0 "a", DiffEngine.EditOp.delete 1 "b",
            DiffEngine.EditOp.insert 1 "x", DiffEngine.EditOp.equal 2 2 "c"]] ∧
    DiffEngine.stats (DiffEngine.compute ["a", "b", "c"] ["a", "x", "c"] 3) =
      DiffEngine.Stats.mk 1 1 2 := by
  constructor <;>
    norm_num [DiffEngine.compute, DiffEngine.computeOps, DiffEngine.lcsLen,
      DiffEngine.groupOps, DiffEngine.collectFrom, DiffEngine.mkHunk, DiffEngine.oldLen,
      DiffEngine.newLen, DiffEngine.oldContents, DiffEngine.newContents, DiffEngine.stats,
      DiffEngine.isEqualOp, DiffEngine.isInsertOp, DiffEngine.isDeleteOp, List.takeWhile,
      List.dropWhile, List.filterMap_cons, List.countP_cons]

/-- C9: every mutating step-store operation fires the registered change
callback exactly once (reported here as the event tally of the operation)
after performing its mutation, while operations that do not mutate
(updateStepStatus and removeStep on a missing id, importFromJSON of a
non-array value) fire it zero times. -/
theorem C9_step_store_change_events (st : StepKit.StepStore) (s : StepKit.Step)
    (id : String) (ns : StepKit.StepStatus) (ss : List StepKit.Step) :
    ((st.addStep s).1.steps = st.steps ++ [s] ∧ (st.addStep s).2 = 1) ∧
    ((st.steps.find? (fun x => x.id == id)).isSome →
      (st.updateStepStatus id ns).2 = 1) ∧
    (¬ (st.steps.find? (fun x => x.id == id)).isSome →
      (st.updateStepStatus id ns) = (st, 0)) ∧
    ((st.steps.findIdx? (fun x => x.id == id)).isSome → (st.removeStep id).2 = 1) ∧
    (¬ (st.steps.findIdx? (fun x => x.id == id)).isSome →
      (st.removeStep id) = (st, 0)) ∧
    (st.clear.1.steps = [] ∧ st.clear.2 = 1) ∧
    st.importFromJSON (StepKit.ParsedJson.arr ss) = .ok (StepKit.StepStore.mk ss, 1) ∧
    st.importFromJSON StepKit.ParsedJson.nonArray = .ok (st, 0) := by
  refine ⟨⟨rfl, rfl⟩, ?_, ?_, ?_, ?_, ⟨rfl, rfl⟩, rfl, rfl⟩
  · intro hf
    simp only [StepKit.StepStore.updateStepStatus]
    cases hfind : st.steps.find? (fun x => x.id == id) with
    | some _ => rfl
    | none =>
      rw [hfind] at hf
      simp at hf
  · intro hf
    simp only [StepKit.StepStore.updateStepStatus]
    cases hfind : st.steps.find? (fun x => x.id == id) with
    | some v =>
      rw [hfind] at hf
      simp at hf
    | none => rfl
  · intro hf
    simp only [StepKit.StepStore.removeStep]
    rw [if_pos hf]
  · intro hf
    simp only [StepKit.StepStore.removeStep]
    rw [if_neg hf]

/-- Witness for C9 at a concrete store: with one stored step, updating and
removing by its id fire once, and by a missing id fire zero times. -/
theorem C9_step_store_change_events_witness :
    ((StepKit.StepStore.updateStepStatus
        (StepKit.StepStore.mk
          [StepKit.Step.mk "s1" 0 "f.ts" (StepKit.DiffInfo.mk "o" "m") "m1"
            StepKit.StepStatus.pending none])
        "s1" StepKit.StepStatus.accepted).2 = 1) ∧
    (StepKit.StepStore.removeStep
        (StepKit.StepStore.mk
          [StepKit.Step.mk "s1" 0 "f.ts" (StepKit.DiffInfo.mk "o" "m") "m1"
            StepKit.StepStatus.pending none])
        "s2") =
      (StepKit.StepStore.mk
        [StepKit.Step.mk "s1" 0 "f.ts" (StepKit.DiffInfo.mk "o" "m") "m1"
          StepKit.StepStatus.pending none], 0) := by
  constructor
  · exact (C9_step_store_change_events
      (StepKit.StepStore.mk
        [StepKit.Step.mk "s1" 0 "f.ts" (StepKit.DiffInfo.mk "o" "m") "m1"
          StepKit.StepStatus.pending none])
      (StepKit.Step.mk "s1" 0 "f.ts" (StepKit.DiffInfo.mk "o" "m") "m1"
        StepKit.StepStatus.pending none)
      "s1" StepKit.StepStatus.accepted []).2.1 (by decide)
  · exact (C9_step_store_change_events
      (StepKit.StepStore.mk
        [StepKit.Step.mk "s1" 0 "f.ts" (StepKit.DiffInfo.mk "o" "m") "m1"
          StepKit.StepStatus.pending none])
      (StepKit.Step.mk "s1" 0 "f.ts" (StepKit.DiffInfo.mk "o" "m") "m1"
        StepKit.StepStatus.pending none)
      "s2" StepKit.StepStatus.accepted []).2.2.2.2.1 (by decide)

/-- C10: getAllSteps hands out a fresh copy: after getChildren reverses the
returned array in place to show newest first, the store's own array is
unchanged and the returned value is the reversed copy. -/
theorem C10_getAllSteps_returns_fresh_copy (h : StepKit.ArrayHeap) (store : Nat)
    (hv : store < h.cells.length) :
    (StepKit.getChildrenRef h store).1.read store = h.read store ∧
    (StepKit.getChildrenRef h store).2 = (h.read store).reverse := by
  have hne : h.cells.length ≠ store := Nat.ne_of_gt hv
  have hr1 : (StepKit.ArrayHeap.mk (h.cells ++ [h.read store])).read h.cells.length =
      h.read store := by
    simp only [StepKit.ArrayHeap.read]
    rw [List.getElem?_append_right le_rfl]
    simp
  constructor
  · simp only [StepKit.getChildrenRef, StepKit.getAllStepsRef, StepKit.ArrayHeap.alloc,
      StepKit.ArrayHeap.write, StepKit.ArrayHeap.read]
    rw [List.getElem?_set_ne hne, List.getElem?_append_left hv]
  · simp only [StepKit.getChildrenRef, StepKit.getAllStepsRef, StepKit.ArrayHeap.alloc]
    rw [hr1]
    simp only [StepKit.ArrayHeap.write, StepKit.ArrayHeap.read]
    rw [List.getElem?_set_self]
    · rfl
    · simp

/-- Witness for C10 at a concrete heap: a one-cell heap whose store holds
two steps survives getChildren unchanged while the view is reversed. -/
theorem C10_getAllSteps_returns_fresh_copy_witness :
    (StepKit.getChildrenRef
        (StepKit.ArrayHeap.mk
          [[StepKit.Step.mk "s1" 0 "f.ts" (StepKit.DiffInfo.mk "o" "m") "m1"
              StepKit.StepStatus.pending none,
            StepKit.Step.mk "s2" 1 "g.ts" (StepKit.DiffInfo.mk "o2" "m2") "m1"
              StepKit.StepStatus.accepted none]])
        0).1.read 0 =
      (StepKit.ArrayHeap.mk
        [[StepKit.Step.mk "s1" 0 "f.ts" (StepKit.DiffInfo.mk "o" "m") "m1"
            StepKit.StepStatus.pending none,
          StepKit.Step.mk "s2" 1 "g.ts" (StepKit.DiffInfo.mk "o2" "m2") "m1"
            StepKit.StepStatus.accepted none]]).read 0 ∧
    (StepKit.getChildrenRef
        (StepKit.ArrayHeap.mk
          [[StepKit.Step.mk "s1" 0 "f.ts" (StepKit.DiffInfo.mk "o" "m") "m1"
              StepKit.StepStatus.pending none,
            StepKit.Step.mk "s2" 1 "g.ts" (StepKit.DiffInfo.mk "o2" "m2") "m1"
              StepKit.StepStatus.accepted none]])
        0).2 =
      ((StepKit.ArrayHeap.mk
        [[StepKit.Step.mk "s1" 0 "f.ts" (StepKit.DiffInfo.mk "o" "m") "m1"
            StepKit.StepStatus.pending none,
          StepKit.Step.mk "s2" 1 "g.ts" (StepKit.DiffInfo.mk "o2" "m2") "m1"
            StepKit.StepStatus.accepted none]]).read 0).reverse :=
  C10_getAllSteps_returns_fresh_copy
    (StepKit.ArrayHeap.mk
      [[StepKit.Step.mk "s1" 0 "f.ts" (StepKit.DiffInfo.mk "o" "m") "m1"
          StepKit.StepStatus.pending none,
        StepKit.Step.mk "s2" 1 "g.ts" (StepKit.DiffInfo.mk "o2" "m2") "m1"
          StepKit.StepStatus.accepted none]])
    0 (by decide)

namespace DiffEngine

/-- Splitting always yields at least one piece. -/
theorem splitOnChar_ne_nil (sep : Char) : ∀ cs : List Char, splitOnChar sep cs ≠ [] := by
  intro cs
  induction cs with
  | nil => simp [splitOnChar]
  | cons ch cs ih =>
    simp only [splitOnChar]
    cases hsp : splitOnChar sep cs with
    | nil => simp
    | cons r rs =>
      by_cases hc : ch = sep <;> simp [hc]

/-- Splitting a separator-free piece yields just that piece. -/
theorem splitOnChar_of_not_mem (sep : Char) :
    ∀ cs : List Char, sep ∉ cs → splitOnChar sep cs = [cs] := by
  intro cs
  induction cs with
  | nil => intro _; rfl
  | cons ch cs ih =>
    intro hmem
    have hch : ch ≠ sep := fun h => hmem (h ▸ List.mem_cons_self ch cs)
    have hcs : sep ∉ cs := fun h => hmem (List.mem_cons_of_mem ch h)
    simp only [splitOnChar, ih hcs]
    simp [hch]

/-- Splitting distributes across the first separator occurrence when the
piece before it is separator-free. -/
theorem splitOnChar_append_cons (sep : Char) :
    ∀ (xs ys : List Char), sep ∉ xs →
      splitOnChar sep (xs ++ sep :: ys) = xs :: splitOnChar sep ys := by
  intro xs
  induction xs with
  | nil =>
    intro ys _
    simp only [List.nil_append, splitOnChar]
    cases hsp : splitOnChar sep ys with
    | nil => exact absurd hsp (splitOnChar_ne_nil sep ys)
    | cons r rs => simp
  | cons ch xs ih =>
    intro ys hmem
    have hch : ch ≠ sep := fun h => hmem (h ▸ List.mem_cons_self ch xs)
    have hxs : sep ∉ xs := fun h => hmem (List.mem_cons_of_mem ch h)
    simp only [List.cons_append, splitOnChar, List.append_eq]
    rw [ih ys hxs]
    simp [hch]

/-- Splitting inverts joining for nonempty lists of separator-free
pieces. -/
theorem splitOnChar_joinWithChar (sep : Char) :
    ∀ ls : List (List Char), ls ≠ [] → (∀ l ∈ ls, sep ∉ l) →
      splitOnChar sep (joinWithChar sep ls) = ls := by
  intro ls
  induction ls with
  | nil => intro h _; exact absurd rfl h
  | cons l tl ih =>
    intro _ hfree
    cases tl with
    | nil =>
      simp only [joinWithChar]
      exact splitOnChar_of_not_mem sep l (hfree l (List.mem_cons_self l []))
    | cons l2 tl2 =>
      simp only [joinWithChar]
      rw [splitOnChar_append_cons sep l (joinWithChar sep (l2 :: tl2))
        (hfree l (List.mem_cons_self l (l2 :: tl2)))]
      rw [ih (List.cons_ne_nil l2 tl2) (fun x hx => hfree x (List.mem_cons_of_mem l hx))]

/-- Digit characters of values below ten are digits with the expected code
point. -/
theorem digitChar_spec : ∀ m : Nat, m < 10 →
    (digitChar m).isDigit = true ∧ (digitChar m).toNat = 48 + m := by
  intro m hm
  interval_cases m <;> exact ⟨rfl, rfl⟩

/-- Decimal digit lists are nonempty. -/
theorem natDigits_ne_nil (n : Nat) : natDigits n ≠ [] := by
  rw [natDigits]
  by_cases h : n < 10 <;> simp [h]

/-- Every character of a decimal digit list is a digit. -/
theorem natDigits_all_digits : ∀ n : Nat, ∀ ch ∈ natDigits n, ch.isDigit = true := by
  intro n
  induction n using Nat.strong_induction_on with
  | _ n ih =>
    intro ch hch
    rw [natDigits] at hch
    by_cases h : n < 10
    · rw [if_pos h] at hch
      cases hch with
      | head => exact (digitChar_spec n h).1
      | tail _ hm => cases hm
    · rw [if_neg h] at hch
      rw [List.mem_append] at hch
      cases hch with
      | inl hm => exact ih (n / 10) (Nat.div_lt_self (by omega) (by omega)) ch hm
      | inr hm =>
        cases hm with
        | head => exact (digitChar_spec (n % 10) (Nat.mod_lt n (by omega))).1
        | tail _ hm2 => cases hm2

/-- A non-digit character never occurs in a decimal digit list. -/
theorem not_mem_natDigits (ch : Char) (n : Nat) (h : ch.isDigit = false) :
    ch ∉ natDigits n := by
  intro hmem
  rw [natDigits_all_digits n ch hmem] at h
  cases h

/-- Folding the decimal digits of a value onto an accumulator scales the
accumulator by the digit count and adds the value. -/
theorem foldl_natDigits : ∀ n a : Nat,
    (natDigits n).foldl (fun acc ch => acc * 10 + (ch.toNat - 48)) a =
      a * 10 ^ (natDigits n).length + n := by
  intro n
  induction n using Nat.strong_induction_on with
  | _ n ih =>
    intro a
    rw [natDigits]
    by_cases h : n < 10
    · rw [if_pos h]
      simp only [List.foldl_cons, List.foldl_nil, List.length_cons, List.length_nil]
      rw [(digitChar_spec n h).2]
      simp
    · rw [if_neg h]
      rw [List.foldl_append]
      rw [ih (n / 10) (Nat.div_lt_self (by omega) (by omega)) a]
      simp only [List.foldl_cons, List.foldl_nil, List.length_append, List.length_cons,
        List.length_nil]
      rw [(digitChar_spec (n % 10) (Nat.mod_lt n (by omega))).2]
      rw [Nat.pow_succ]
      have hdm := Nat.div_add_mod n 10
      ring_nf
      omega

/-- Reading back the decimal digits of a value gives the value. -/
theorem parseNat_natDigits (n : Nat) : parseNat (natDigits n) = some n := by
  rw [parseNat, if_pos]
  · rw [foldl_natDigits]
    simp
  · refine ⟨natDigits_ne_nil n, ?_⟩
    rw [List.all_eq_true]
    exact natDigits_all_digits n

/-- Stripping a literal leading sequence from itself followed by a
remainder gives the remainder. -/
theorem dropPfx_append : ∀ (p rest : List Char), dropPfx p (p ++ rest) = some rest := by
  intro p
  induction p with
  | nil => intro rest; rfl
  | cons c2 p ih =>
    intro rest
    simp only [List.cons_append, dropPfx, if_pos rfl]
    exact ih rest

end DiffEngine

namespace DiffEngine

/-- A run of Equal ops produces as many new lines as its length. -/
theorem equalRun_newLen :
    ∀ {l : List EditOp}, (∀ x ∈ l, isEqualOp x = true) → (newContents l).length = l.length := by
  intro l
  induction l with
  | nil => intro _; rfl
  | cons op tl ih =>
    intro h
    have hop := h op (List.mem_cons_self op tl)
    have htl := ih (fun x hx => h x (List.mem_cons_of_mem op hx))
    cases op with
    | equal a b s =>
      simp only [newContents, List.filterMap_cons, List.length_cons] at htl ⊢
      rw [htl]
    | delete a s => simp [isEqualOp] at hop
    | insert b s => simp [isEqualOp] at hop

/-- Splitting an index-consistent op sequence at an append point keeps both
parts index-consistent, the right part starting where the left part
ends. -/
theorem OpsIndexed_append :
    ∀ (xs ys : List EditOp) (i j : Nat),
      OpsIndexed i j (xs ++ ys) →
      OpsIndexed i j xs ∧ OpsIndexed (i + oldLen xs) (j + newLen xs) ys := by
  intro xs
  induction xs with
  | nil =>
    intro ys i j h
    refine ⟨trivial, ?_⟩
    simpa [oldLen, newLen, oldContents, newContents] using h
  | cons op xs ih =>
    intro ys i j h
    cases op with
    | equal a b s =>
      simp only [List.cons_append, OpsIndexed] at h
      obtain ⟨ha, hb, h3⟩ := h
      obtain ⟨h4, h5⟩ := ih ys (i + 1) (j + 1) h3
      refine ⟨⟨ha, hb, h4⟩, ?_⟩
      have e1 : i + oldLen (EditOp.equal a b s :: xs) = i + 1 + oldLen xs := by
        simp only [oldLen, oldContents, List.filterMap_cons, List.length_cons]
        omega
      have e2 : j + newLen (EditOp.equal a b s :: xs) = j + 1 + newLen xs := by
        simp only [newLen, newContents, List.filterMap_cons, List.length_cons]
        omega
      rw [e1, e2]
      exact h5
    | delete a s =>
      simp only [List.cons_append, OpsIndexed] at h
      obtain ⟨ha, h3⟩ := h
      obtain ⟨h4, h5⟩ := ih ys (i + 1) j h3
      refine ⟨⟨ha, h4⟩, ?_⟩
      have e1 : i + oldLen (EditOp.delete a s :: xs) = i + 1 + oldLen xs := by
        simp only [oldLen, oldContents, List.filterMap_cons, List.length_cons]
        omega
      have e2 : j + newLen (EditOp.delete a s :: xs) = j + newLen xs := by
        simp only [newLen, newContents, List.filterMap_cons]
      rw [e1, e2]
      exact h5
    | insert b s =>
      simp only [List.cons_append, OpsIndexed] at h
      obtain ⟨hb, h3⟩ := h
      obtain ⟨h4, h5⟩ := ih ys i (j + 1) h3
      refine ⟨⟨hb, h4⟩, ?_⟩
      have e1 : i + oldLen (EditOp.insert b s :: xs) = i + oldLen xs := by
        simp only [oldLen, oldContents, List.filterMap_cons]
      have e2 : j + newLen (EditOp.insert b s :: xs) = j + 1 + newLen xs := by
        simp only [newLen, newContents, List.filterMap_cons, List.length_cons]
        omega
      rw [e1, e2]
      exact h5

/-- The op sequence emitted by computeOps is index-consistent from its
start positions. -/
theorem computeOps_indexed : ∀ i j o n, OpsIndexed i j (computeOps i j o n) := by
  intro i j o n
  induction i, j, o, n using computeOps.induct with
  | case1 => simp only [computeOps]; trivial
  | case2 i j o os ih =>
    simp only [computeOps]
    exact ⟨rfl, ih⟩
  | case3 i j n ns ih =>
    simp only [computeOps]
    exact ⟨rfl, ih⟩
  | case4 i j os n ns ih =>
    simp only [computeOps, eq_self_iff_true, if_true]
    exact ⟨rfl, rfl, ih⟩
  | case5 i j o os n ns hne hle ih =>
    simp only [computeOps]
    rw [if_neg hne, if_pos hle]
    exact ⟨rfl, ih⟩
  | case6 i j o os n ns hne hnle ih =>
    simp only [computeOps]
    rw [if_neg hne, if_neg hnle]
    exact ⟨rfl, ih⟩

/-- Serialized op lines carry a valid body marker. -/
theorem hasBodyPfx_serializeOp (op : EditOp) : hasBodyPfx (serializeOp op) = true := by
  cases op <;> rfl

/-- A serialized op line consumes an old line exactly when its op does. -/
theorem lineUsesOld_serializeOp (op : EditOp) :
    lineUsesOld (serializeOp op) = opUsesOld op := by
  cases op <;> rfl

/-- A serialized op line produces a new line exactly when its op does. -/
theorem lineUsesNew_serializeOp (op : EditOp) :
    lineUsesNew (serializeOp op) = opUsesNew op := by
  cases op <;> rfl

/-- The Equal plus Delete op tally is the old-side line tally. -/
theorem countOldOps_eq_oldLen (l : List EditOp) : countOldOps l = oldLen l := by
  induction l with
  | nil => rfl
  | cons op tl ih =>
    simp only [countOldOps, oldLen, oldContents] at ih ⊢
    cases op <;>
      simp [List.countP_cons, List.filterMap_cons, opUsesOld, ih]

/-- The Equal plus Insert op tally is the new-side line tally. -/
theorem countNewOps_eq_newLen (l : List EditOp) : countNewOps l = newLen l := by
  induction l with
  | nil => rfl
  | cons op tl ih =>
    simp only [countNewOps, newLen, newContents] at ih ⊢
    cases op <;>
      simp [List.countP_cons, List.filterMap_cons, opUsesNew, ih]

/-- Reading back the serialized body lines of an index-consistent op
sequence from its start positions reproduces the ops. -/
theorem parseBody_serializeOps :
    ∀ (l : List EditOp) (i j : Nat), OpsIndexed i j l →
      parseBody i j (l.map serializeOp) = some l := by
  intro l
  induction l with
  | nil => intro i j _; rfl
  | cons op tl ih =>
    intro i j h
    cases op with
    | equal a b s =>
      simp only [OpsIndexed] at h
      obtain ⟨ha, hb, h3⟩ := h
      subst ha hb
      simp only [List.map_cons, parseBody, serializeOp]
      rw [ih (a + 1) (b + 1) h3]
      rfl
    | delete a s =>
      simp only [OpsIndexed] at h
      obtain ⟨ha, h3⟩ := h
      subst ha
      simp only [List.map_cons, parseBody, serializeOp]
      rw [ih (a + 1) j h3]
      rfl
    | insert b s =>
      simp only [OpsIndexed] at h
      obtain ⟨hb, h3⟩ := h
      subst hb
      simp only [List.map_cons, parseBody, serializeOp]
      rw [ih i (b + 1) h3]
      rfl

/-- Reading back a serialized range side gives its start and count. -/
theorem parsePair_digits (a b : Nat) :
    parsePair (natDigits a ++ ',' :: natDigits b) = some (a, b) := by
  have hsplit : splitOnChar ',' (natDigits a ++ ',' :: natDigits b) =
      [natDigits a, natDigits b] := by
    rw [splitOnChar_append_cons ',' (natDigits a) (natDigits b)
      (not_mem_natDigits ',' a (by decide))]
    rw [splitOnChar_of_not_mem ',' (natDigits b) (not_mem_natDigits ',' b (by decide))]
  simp only [parsePair, hsplit]
  rw [parseNat_natDigits, parseNat_natDigits]

/-- Space never occurs in a serialized range side. -/
theorem space_not_mem_side (pc : Char) (hpc : ' ' ≠ pc) (x y : Nat) :
    ' ' ∉ (pc :: (natDigits x ++ ',' :: natDigits y)) := by
  intro hmem
  simp only [List.mem_cons, List.mem_append] at hmem
  rcases hmem with h | h | h | h
  · exact hpc h
  · exact not_mem_natDigits ' ' x (by decide) h
  · exact absurd h (by decide)
  · exact not_mem_natDigits ' ' y (by decide) h

/-- Reading back a serialized range line gives the four header numbers. -/
theorem parseRange_digits (a b c2 d : Nat) :
    parseRange (['@', '@'] ++ ' ' ::
      (('-' :: natDigits a ++ ',' :: natDigits b) ++ ' ' ::
        (('+' :: natDigits c2 ++ ',' :: natDigits d) ++ ' ' :: ['@', '@']))) =
      some (a, b, c2, d) := by
  have h1 : splitOnChar ' ' (['@', '@'] ++ ' ' ::
      (('-' :: natDigits a ++ ',' :: natDigits b) ++ ' ' ::
        (('+' :: natDigits c2 ++ ',' :: natDigits d) ++ ' ' :: ['@', '@']))) =
      [['@', '@'], '-' :: natDigits a ++ ',' :: natDigits b,
        '+' :: natDigits c2 ++ ',' :: natDigits d, ['@', '@']] := by
    rw [splitOnChar_append_cons ' ' ['@', '@'] _ (by decide)]
    rw [splitOnChar_append_cons ' ' ('-' :: natDigits a ++ ',' :: natDigits b) _
      (space_not_mem_side '-' (by decide) a b)]
    rw [splitOnChar_append_cons ' ' ('+' :: natDigits c2 ++ ',' :: natDigits d) _
      (space_not_mem_side '+' (by decide) c2 d)]
    rw [splitOnChar_of_not_mem ' ' ['@', '@'] (by decide)]
  simp only [parseRange]
  rw [h1]
  simp only [List.cons_append, eq_self_iff_true, and_self, if_true]
  rw [parsePair_digits, parsePair_digits]

/-- Reading back the range line of a hunk gives its header fields. -/
theorem parseRange_rangeLineChars (h : Hunk) :
    parseRange (rangeLineChars h) =
      some (h.oldStart, h.oldCount, h.newStart, h.newCount) := by
  rw [rangeLineChars]
  exact parseRange_digits h.oldStart h.oldCount h.newStart h.newCount

end DiffEngine

namespace DiffEngine

/-- Every hunk produced by the collection loop from an index-consistent op
sequence is a built hunk whose ops are index-consistent from its recorded
positions and drawn from the pending ops. -/
theorem mem_collectFrom_indexed (c : Nat) :
    ∀ (N : Nat) (ops : List EditOp), ops.length ≤ N →
      ∀ (i j : Nat) (acc : List EditOp), OpsIndexed i j (acc ++ ops) →
        ∀ h ∈ collectFrom c i j acc ops,
          ∃ a b l, h = mkHunk a b l ∧ OpsIndexed a b l ∧ l ⊆ acc ++ ops := by
  intro N
  induction N with
  | zero =>
    intro ops hlen i j acc _ h hmem
    cases ops with
    | nil => simp [collectFrom] at hmem
    | cons op tl => simp at hlen
  | succ N ihN =>
    intro ops hlen i j acc hIdx h hmem
    cases ops with
    | nil => simp [collectFrom] at hmem
    | cons op tl =>
      obtain ⟨ch, hch⟩ : ∃ l, List.takeWhile (fun o => !isEqualOp o) tl = l := ⟨_, rfl⟩
      obtain ⟨eqR, heqR⟩ :
          ∃ l, List.takeWhile isEqualOp (List.dropWhile (fun o => !isEqualOp o) tl) = l :=
        ⟨_, rfl⟩
      have heqR_all : ∀ x ∈ eqR, isEqualOp x = true := by
        intro x hx
        rw [← heqR] at hx
        exact List.mem_takeWhile_imp hx
      cases hrest2 : List.dropWhile isEqualOp (List.dropWhile (fun o => !isEqualOp o) tl) with
      | nil =>
        have htl : tl = ch ++ eqR := by
          have h1 := List.takeWhile_append_dropWhile (fun o => !isEqualOp o) tl
          have h2 := List.takeWhile_append_dropWhile isEqualOp
            (List.dropWhile (fun o => !isEqualOp o) tl)
          rw [hrest2, List.append_nil, heqR] at h2
          rw [hch, ← h2] at h1
          exact h1.symm
        rw [collectFrom_eq_close_last c i j acc op tl ch eqR hch heqR hrest2] at hmem
        have hsplit : acc ++ op :: tl = (acc ++ op :: ch ++ eqR.take c) ++ eqR.drop c := by
          conv_lhs => rw [htl, ← List.take_append_drop c eqR]
          simp [List.append_assoc]
        cases hmem with
        | head =>
          refine ⟨i, j, acc ++ op :: ch ++ eqR.take c, rfl, ?_, ?_⟩
          · rw [hsplit] at hIdx
            exact (OpsIndexed_append _ _ i j hIdx).1
          · rw [hsplit]
            exact List.subset_append_left _ _
        | tail _ hmem2 => cases hmem2
      | cons r rs =>
        have hlen2 : (r :: rs).length ≤ N := by
          have h3 : (r :: rs).length ≤ tl.length := by
            rw [← hrest2]
            exact le_trans (List.dropWhile_sublist _).length_le
              (List.dropWhile_sublist _).length_le
          simp only [List.length_cons] at hlen h3 ⊢
          omega
        have htl2 : tl = ch ++ (eqR ++ (r :: rs)) := by
          have h1 := List.takeWhile_append_dropWhile (fun o => !isEqualOp o) tl
          have h2 := List.takeWhile_append_dropWhile isEqualOp
            (List.dropWhile (fun o => !isEqualOp o) tl)
          rw [hrest2, heqR] at h2
          rw [hch, ← h2] at h1
          exact h1.symm
        by_cases hmerge : eqR.length < 2 * c
        · rw [collectFrom_eq_merge c i j acc op tl ch eqR r rs hch heqR hrest2 hmerge] at hmem
          have hacc : acc ++ op :: tl = (acc ++ op :: ch ++ eqR) ++ (r :: rs) := by
            rw [htl2]
            simp [List.append_assoc]
          rw [hacc] at hIdx ⊢
          exact ihN (r :: rs) hlen2 i j (acc ++ op :: ch ++ eqR) hIdx h hmem
        · rw [collectFrom_eq_close c i j acc op tl ch eqR r rs hch heqR hrest2 hmerge] at hmem
          have hg : 2 * c ≤ eqR.length := Nat.le_of_not_lt hmerge
          have hctx2 : (eqR.drop c).drop (eqR.length - 2 * c) = eqR.drop (eqR.length - c) := by
            rw [List.drop_drop]
            congr 1
            omega
          have heqRsplit : eqR =
              eqR.take c ++ ((eqR.drop c).take (eqR.length - 2 * c) ++
                eqR.drop (eqR.length - c)) := by
            rw [← hctx2, List.take_append_drop]
            exact (List.take_append_drop c eqR).symm
          have hsplit : acc ++ op :: tl =
              (acc ++ op :: ch ++ eqR.take c) ++
                ((eqR.drop c).take (eqR.length - 2 * c) ++
                  (eqR.drop (eqR.length - c) ++ (r :: rs))) := by
            conv_lhs => rw [htl2, heqRsplit]
            simp [List.append_assoc]
          have hmid_all : ∀ x ∈ (eqR.drop c).take (eqR.length - 2 * c), isEqualOp x = true :=
            fun x hx => heqR_all x (List.mem_of_mem_drop (List.mem_of_mem_take hx))
          cases hmem with
          | head =>
            refine ⟨i, j, acc ++ op :: ch ++ eqR.take c, rfl, ?_, ?_⟩
            · rw [hsplit] at hIdx
              exact (OpsIndexed_append _ _ i j hIdx).1
            · rw [hsplit]
              exact List.subset_append_left _ _
          | tail _ hmem2 =>
            have hIdx2 : OpsIndexed
                (i + oldLen (acc ++ op :: ch ++ eqR.take c) + (eqR.length - 2 * c))
                (j + newLen (acc ++ op :: ch ++ eqR.take c) + (eqR.length - 2 * c))
                (eqR.drop (eqR.length - c) ++ (r :: rs)) := by
              rw [hsplit] at hIdx
              have hA := (OpsIndexed_append _ _ i j hIdx).2
              have hB := (OpsIndexed_append _ _ _ _ hA).2
              have hml : oldLen ((eqR.drop c).take (eqR.length - 2 * c)) =
                  eqR.length - 2 * c := by
                show (oldContents ((eqR.drop c).take (eqR.length - 2 * c))).length =
                  eqR.length - 2 * c
                rw [equalRun_oldLen hmid_all]
                simp only [List.length_take, List.length_drop]
                omega
              have hnl : newLen ((eqR.drop c).take (eqR.length - 2 * c)) =
                  eqR.length - 2 * c := by
                show (newContents ((eqR.drop c).take (eqR.length - 2 * c))).length =
                  eqR.length - 2 * c
                rw [equalRun_newLen hmid_all]
                simp only [List.length_take, List.length_drop]
                omega
              rw [hml, hnl] at hB
              exact hB
            obtain ⟨a2, b2, l2, hshape, hIdxl, hsubl⟩ :=
              ihN (r :: rs) hlen2 _ _ (eqR.drop (eqR.length - c)) hIdx2 h hmem2
            refine ⟨a2, b2, l2, hshape, hIdxl, ?_⟩
            refine List.Subset.trans hsubl ?_
            rw [hsplit]
            intro x hx
            simp only [List.mem_append] at hx ⊢
            tauto

/-- Every hunk produced by the grouping stage from an index-consistent op
sequence is a built hunk whose ops are index-consistent from its recorded
positions and drawn from the sequence. -/
theorem mem_groupOps_indexed (c i j : Nat) (ops : List EditOp)
    (hIdx : OpsIndexed i j ops) (h : Hunk) (hmem : h ∈ groupOps c i j ops) :
    ∃ a b l, h = mkHunk a b l ∧ OpsIndexed a b l ∧ l ⊆ ops := by
  rw [groupOps] at hmem
  cases hrest : List.dropWhile isEqualOp ops with
  | nil =>
    rw [hrest] at hmem
    simp at hmem
  | cons op tl =>
    rw [hrest] at hmem
    have hpre_all : ∀ x ∈ List.takeWhile isEqualOp ops, isEqualOp x = true :=
      fun x hx => List.mem_takeWhile_imp hx
    have hops : ops = List.takeWhile isEqualOp ops ++ (op :: tl) := by
      conv_lhs => rw [← List.takeWhile_append_dropWhile isEqualOp ops, hrest]
    obtain ⟨pre, hpre⟩ : ∃ l, List.takeWhile isEqualOp ops = l := ⟨_, rfl⟩
    rw [hpre] at hmem hops hpre_all
    have hsplit : ops = pre.take (pre.length - c) ++
        (pre.drop (pre.length - c) ++ (op :: tl)) := by
      rw [hops, ← List.append_assoc, List.take_append_drop]
    have hIdx2 : OpsIndexed (i + (pre.length - c)) (j + (pre.length - c))
        (pre.drop (pre.length - c) ++ (op :: tl)) := by
      rw [hsplit] at hIdx
      have hA := (OpsIndexed_append _ _ i j hIdx).2
      have htk_all : ∀ x ∈ pre.take (pre.length - c), isEqualOp x = true :=
        fun x hx => hpre_all x (List.mem_of_mem_take hx)
      have hml : oldLen (pre.take (pre.length - c)) = pre.length - c := by
        show (oldContents (pre.take (pre.length - c))).length = pre.length - c
        rw [equalRun_oldLen htk_all]
        simp only [List.length_take]
        omega
      have hnl : newLen (pre.take (pre.length - c)) = pre.length - c := by
        show (newContents (pre.take (pre.length - c))).length = pre.length - c
        rw [equalRun_newLen htk_all]
        simp only [List.length_take]
        omega
      rw [hml, hnl] at hA
      exact hA
    obtain ⟨a2, b2, l2, hshape, hIdxl, hsubl⟩ :=
      mem_collectFrom_indexed c (op :: tl).length (op :: tl) le_rfl _ _
        (pre.drop (pre.length - c)) hIdx2 h hmem
    refine ⟨a2, b2, l2, hshape, hIdxl, ?_⟩
    refine List.Subset.trans hsubl ?_
    rw [hsplit]
    intro x hx
    simp only [List.mem_append] at hx ⊢
    tauto

end DiffEngine

namespace DiffEngine

/-- The character list behind a packed string is the packed list. -/
theorem string_data_mk (cs : List Char) : (String.mk cs).data = cs := rfl

/-- A range line never carries a body marker (it opens with an at sign). -/
theorem hasBodyPfx_rangeLine (h : Hunk) :
    hasBodyPfx (String.mk (rangeLineChars h)) = false := rfl

/-- No line of a serialized hunk list is taken as body of a previous hunk:
every hunk opens with its range line. -/
theorem takeWhile_hasBodyPfx_flatten (t : List Hunk) :
    List.takeWhile hasBodyPfx ((t.map serializeHunk).flatten) = [] := by
  cases t with
  | nil => rfl
  | cons h2 t2 =>
    simp only [List.map_cons, List.flatten_cons, serializeHunk, List.cons_append]
    rw [List.takeWhile_cons_of_neg]
    simp [hasBodyPfx_rangeLine]

/-- Dropping body-marked lines leaves a serialized hunk list untouched. -/
theorem dropWhile_hasBodyPfx_flatten (t : List Hunk) :
    List.dropWhile hasBodyPfx ((t.map serializeHunk).flatten) =
      (t.map serializeHunk).flatten := by
  cases t with
  | nil => rfl
  | cons h2 t2 =>
    simp only [List.map_cons, List.flatten_cons, serializeHunk, List.cons_append]
    rw [List.dropWhile_cons_of_neg]
    simp [hasBodyPfx_rangeLine]

/-- Reading back the serialized lines of built hunks with index-consistent
bodies reproduces the hunks. -/
theorem parseHunks_serializeHunks :
    ∀ hs : List Hunk,
      (∀ h ∈ hs, ∃ a b l, h = mkHunk a b l ∧ OpsIndexed a b l) →
      parseHunks ((hs.map serializeHunk).flatten) = some hs := by
  intro hs
  induction hs with
  | nil => intro _; simp [parseHunks]
  | cons h t ih =>
    intro hall
    obtain ⟨a, b, l, hsh, hIdx⟩ := hall h (List.mem_cons_self h t)
    subst hsh
    have hiht := ih (fun x hx => hall x (List.mem_cons_of_mem _ hx))
    have hpfx : ∀ x ∈ l.map serializeOp, hasBodyPfx x = true := by
      intro x hx
      obtain ⟨op, _, rfl⟩ := List.mem_map.mp hx
      exact hasBodyPfx_serializeOp op
    have htw : List.takeWhile hasBodyPfx
        (l.map serializeOp ++ (t.map serializeHunk).flatten) = l.map serializeOp := by
      rw [List.takeWhile_append_of_pos hpfx, takeWhile_hasBodyPfx_flatten,
        List.append_nil]
    have hdw : List.dropWhile hasBodyPfx
        (l.map serializeOp ++ (t.map serializeHunk).flatten) =
          (t.map serializeHunk).flatten := by
      rw [List.dropWhile_append_of_pos hpfx, dropWhile_hasBodyPfx_flatten]
    have hsa : (if (mkHunk a b l).oldCount = 0 then (mkHunk a b l).oldStart
        else (mkHunk a b l).oldStart - 1) = a := by
      simp only [mkHunk]
      by_cases h0 : oldLen l = 0 <;> simp [h0]
    have hsb : (if (mkHunk a b l).newCount = 0 then (mkHunk a b l).newStart
        else (mkHunk a b l).newStart - 1) = b := by
      simp only [mkHunk]
      by_cases h0 : newLen l = 0 <;> simp [h0]
    have hbody : parseBody (if (mkHunk a b l).oldCount = 0 then (mkHunk a b l).oldStart
          else (mkHunk a b l).oldStart - 1)
        (if (mkHunk a b l).newCount = 0 then (mkHunk a b l).newStart
          else (mkHunk a b l).newStart - 1) (l.map serializeOp) = some l := by
      rw [hsa, hsb]
      exact parseBody_serializeOps l a b hIdx
    have hcounts : countOldOps l = (mkHunk a b l).oldCount ∧
        countNewOps l = (mkHunk a b l).newCount :=
      ⟨by rw [countOldOps_eq_oldLen]; rfl, by rw [countNewOps_eq_newLen]; rfl⟩
    simp only [List.map_cons, List.flatten_cons, serializeHunk, mkHunk_ops,
      List.cons_append]
    simp only [parseHunks, string_data_mk, parseRange_rangeLineChars, htw, hdw,
      hbody, hcounts.1, hcounts.2, and_self, if_true, hiht]
    rfl

end DiffEngine

namespace DiffEngine

/-- Splitting inverts joining for a nonempty list of newline-free lines. -/
theorem splitLines_joinLines (ls : List String) (hne : ls ≠ [])
    (hfree : ∀ s ∈ ls, Char.ofNat 10 ∉ s.data) :
    splitLines (joinLines ls) = ls := by
  simp only [splitLines, joinLines, string_data_mk]
  rw [splitOnChar_joinWithChar (Char.ofNat 10) (ls.map String.data)
    (by cases ls with
        | nil => exact absurd rfl hne
        | cons x t => simp)
    (by intro l hl
        obtain ⟨s, hs, rfl⟩ := List.mem_map.mp hl
        exact hfree s hs)]
  rw [List.map_map]
  have hid : ∀ xs : List String, xs.map (fun s => String.mk s.data) = xs := by
    intro xs
    induction xs with
    | nil => rfl
    | cons x t iht => simp only [List.map_cons, iht]
  exact hid ls

/-- The newline character never occurs in a range line. -/
theorem nl_not_mem_rangeLineChars (h : Hunk) : Char.ofNat 10 ∉ rangeLineChars h := by
  intro hmem
  have hnl : (Char.ofNat 10).isDigit = false := by decide
  have hdig : ∀ x : Nat, Char.ofNat 10 ∈ natDigits x ↔ False :=
    fun x => iff_false_intro (not_mem_natDigits (Char.ofNat 10) x hnl)
  simp only [rangeLineChars, List.cons_append, List.mem_append, List.mem_cons,
    List.not_mem_nil, hdig, or_false, false_or] at hmem
  exact absurd hmem (by decide)

/-- The body lines the LCS emission stage serializes are newline-free when
both input line sequences are. -/
theorem nl_not_mem_serializeOp_computeOps :
    ∀ (i j : Nat) (o n : List String), (∀ s ∈ o, Char.ofNat 10 ∉ s.data) →
      (∀ s ∈ n, Char.ofNat 10 ∉ s.data) →
      ∀ op ∈ computeOps i j o n, Char.ofNat 10 ∉ (serializeOp op).data := by
  intro i j o n
  induction i, j, o, n using computeOps.induct with
  | case1 =>
    intro _ _ op hop
    simp [computeOps] at hop
  | case2 i j o os ih =>
    intro ho hn op hop
    simp only [computeOps, List.mem_cons] at hop
    rcases hop with rfl | hop
    · intro hmem
      simp only [serializeOp, string_data_mk, List.mem_cons] at hmem
      rcases hmem with h | h
      · exact absurd h (by decide)
      · exact ho o (List.mem_cons_self o os) h
    · exact ih (fun s hs => ho s (List.mem_cons_of_mem _ hs)) hn op hop
  | case3 i j n ns ih =>
    intro ho hn op hop
    simp only [computeOps, List.mem_cons] at hop
    rcases hop with rfl | hop
    · intro hmem
      simp only [serializeOp, string_data_mk, List.mem_cons] at hmem
      rcases hmem with h | h
      · exact absurd h (by decide)
      · exact hn n (List.mem_cons_self n ns) h
    · exact ih ho (fun s hs => hn s (List.mem_cons_of_mem _ hs)) op hop
  | case4 i j os n ns ih =>
    intro ho hn op hop
    simp only [computeOps, eq_self_iff_true, if_true, List.mem_cons] at hop
    rcases hop with rfl | hop
    · intro hmem
      simp only [serializeOp, string_data_mk, List.mem_cons] at hmem
      rcases hmem with h | h
      · exact absurd h (by decide)
      · exact hn n (List.mem_cons_self n ns) h
    · exact ih (fun s hs => ho s (List.mem_cons_of_mem _ hs))
        (fun s hs => hn s (List.mem_cons_of_mem _ hs)) op hop
  | case5 i j o os n ns hne hle ih =>
    intro ho hn op hop
    simp only [computeOps] at hop
    rw [if_neg hne, if_pos hle] at hop
    simp only [List.mem_cons] at hop
    rcases hop with rfl | hop
    · intro hmem
      simp only [serializeOp, string_data_mk, List.mem_cons] at hmem
      rcases hmem with h | h
      · exact absurd h (by decide)
      · exact ho o (List.mem_cons_self o os) h
    · exact ih (fun s hs => ho s (List.mem_cons_of_mem _ hs)) hn op hop
  | case6 i j o os n ns hne hnle ih =>
    intro ho hn op hop
    simp only [computeOps] at hop
    rw [if_neg hne, if_neg hnle] at hop
    simp only [List.mem_cons] at hop
    rcases hop with rfl | hop
    · intro hmem
      simp only [serializeOp, string_data_mk, List.mem_cons] at hmem
      rcases hmem with h | h
      · exact absurd h (by decide)
      · exact hn n (List.mem_cons_self n ns) h
    · exact ih ho (fun s hs => hn s (List.mem_cons_of_mem _ hs)) op hop

end DiffEngine

namespace DiffEngine

/-- Every serialized line of a diff whose labels are newline-free and whose
hunks are built from index-consistent, newline-free-serializing bodies is
newline-free. -/
theorem nl_not_mem_serializeLines (d : UnifiedDiff)
    (h1 : Char.ofNat 10 ∉ d.fileLabelOld.data)
    (h2 : Char.ofNat 10 ∉ d.fileLabelNew.data)
    (h3 : ∀ h ∈ d.hunks, ∀ op ∈ h.ops, Char.ofNat 10 ∉ (serializeOp op).data) :
    ∀ s ∈ serializeLines d, Char.ofNat 10 ∉ s.data := by
  intro s hs
  simp only [serializeLines, List.mem_cons] at hs
  rcases hs with rfl | rfl | hs
  · intro hmem
    simp only [string_data_mk, List.mem_cons] at hmem
    rcases hmem with h | h | h | h | h
    · exact absurd h (by decide)
    · exact absurd h (by decide)
    · exact absurd h (by decide)
    · exact absurd h (by decide)
    · exact h1 h
  · intro hmem
    simp only [string_data_mk, List.mem_cons] at hmem
    rcases hmem with h | h | h | h | h
    · exact absurd h (by decide)
    · exact absurd h (by decide)
    · exact absurd h (by decide)
    · exact absurd h (by decide)
    · exact h2 h
  · obtain ⟨block, hblock, hsb⟩ := List.mem_flatten.mp hs
    obtain ⟨hk, hkmem, rfl⟩ := List.mem_map.mp hblock
    simp only [serializeHunk, List.mem_cons] at hsb
    rcases hsb with rfl | hsb
    · intro hmem
      rw [string_data_mk] at hmem
      exact nl_not_mem_rangeLineChars hk hmem
    · obtain ⟨op, hopmem, rfl⟩ := List.mem_map.mp hsb
      exact h3 hk hkmem op hopmem

/-- parse inverts serialize on any diff whose labels are newline-free and
whose hunks are built hunks with index-consistent, newline-free-serializing
bodies (as every diff produced by compute on newline-free lines is). -/
theorem parse_serialize_of_wf (d : UnifiedDiff)
    (h1 : Char.ofNat 10 ∉ d.fileLabelOld.data)
    (h2 : Char.ofNat 10 ∉ d.fileLabelNew.data)
    (h3 : ∀ h ∈ d.hunks, ∃ a b l, h = mkHunk a b l ∧ OpsIndexed a b l ∧
        ∀ op ∈ l, Char.ofNat 10 ∉ (serializeOp op).data) :
    parse (serialize d) = .ok d := by
  have h3ops : ∀ h ∈ d.hunks, ∀ op ∈ h.ops, Char.ofNat 10 ∉ (serializeOp op).data := by
    intro h hm op hop
    obtain ⟨a, b, l, e, _, hfree⟩ := h3 h hm
    apply hfree
    rw [e, mkHunk_ops] at hop
    exact hop
  have hne : serializeLines d ≠ [] := by simp [serializeLines]
  have hsplit : splitLines (serialize d) = serializeLines d :=
    splitLines_joinLines _ hne (nl_not_mem_serializeLines d h1 h2 h3ops)
  have hd1 : dropPfx ['-', '-', '-', ' ']
      ('-' :: '-' :: '-' :: ' ' :: d.fileLabelOld.data) = some d.fileLabelOld.data :=
    dropPfx_append ['-', '-', '-', ' '] d.fileLabelOld.data
  have hd2 : dropPfx ['+', '+', '+', ' ']
      ('+' :: '+' :: '+' :: ' ' :: d.fileLabelNew.data) = some d.fileLabelNew.data :=
    dropPfx_append ['+', '+', '+', ' '] d.fileLabelNew.data
  have hph : parseHunks ((d.hunks.map serializeHunk).flatten) = some d.hunks := by
    apply parseHunks_serializeHunks
    intro h hm
    obtain ⟨a, b, l, e, hi, _⟩ := h3 h hm
    exact ⟨a, b, l, e, hi⟩
  unfold parse
  rw [hsplit]
  simp only [serializeLines, string_data_mk, hd1, hd2, hph]

end DiffEngine

/-- C5: serialization round-trips on computed diffs: for every pair of line
sequences (as produced by splitting a document body, so newline-free lines)
and every context width, parsing the serialized form of the computed diff
gives back exactly that diff. -/
theorem C5_parse_serialize_compute_round_trip (o n : List String) (c : Nat)
    (ho : ∀ s ∈ o, Char.ofNat 10 ∉ s.data) (hn : ∀ s ∈ n, Char.ofNat 10 ∉ s.data) :
    DiffEngine.parse (DiffEngine.serialize (DiffEngine.compute o n c)) =
      .ok (DiffEngine.compute o n c) := by
  apply DiffEngine.parse_serialize_of_wf
  · show Char.ofNat 10 ∉ ("a/file" : String).data
    decide
  · show Char.ofNat 10 ∉ ("b/file" : String).data
    decide
  · intro h hm
    have hm2 : h ∈ DiffEngine.groupOps c 0 0 (DiffEngine.computeOps 0 0 o n) := hm
    obtain ⟨a, b, l, e, hi, hsub⟩ :=
      DiffEngine.mem_groupOps_indexed c 0 0 (DiffEngine.computeOps 0 0 o n)
        (DiffEngine.computeOps_indexed 0 0 o n) h hm2
    exact ⟨a, b, l, e, hi, fun op hop =>
      DiffEngine.nl_not_mem_serializeOp_computeOps 0 0 o n ho hn op (hsub hop)⟩

/-- Witness for C5 at a concrete input: the diff computed between [a] and
[b] survives the serialize-parse round trip. -/
theorem C5_parse_serialize_compute_round_trip_witness :
    DiffEngine.parse (DiffEngine.serialize (DiffEngine.compute ["a"] ["b"] 3)) =
      .ok (DiffEngine.compute ["a"] ["b"] 3) :=
  C5_parse_serialize_compute_round_trip ["a"] ["b"] 3 (by decide) (by decide)

namespace DiffEngine

/-- The lines parseBody consumes tally exactly like the ops it returns:
old-side body lines for Equal plus Delete ops, new-side body lines for
Equal plus Insert ops. -/
theorem parseBody_counts :
    ∀ (i j : Nat) (lines : List String) (ops : List EditOp),
      parseBody i j lines = some ops →
      lines.countP lineUsesOld = countOldOps ops ∧
      lines.countP lineUsesNew = countNewOps ops := by
  intro i j lines
  induction i, j, lines using parseBody.induct with
  | case1 i j =>
    intro ops h
    simp only [parseBody, Option.some.injEq] at h
    subst h
    exact ⟨rfl, rfl⟩
  | case2 i j line rest tail heq ih =>
    intro ops h
    simp only [parseBody, heq] at h
    cases hpb : parseBody (i + 1) (j + 1) rest with
    | none => rw [hpb] at h; simp at h
    | some tl =>
      rw [hpb] at h
      simp only [Option.map, Option.some.injEq] at h
      subst h
      obtain ⟨ho2, hn2⟩ := ih tl hpb
      have hlo : lineUsesOld line = true := by simp [lineUsesOld, heq]
      have hln : lineUsesNew line = true := by simp [lineUsesNew, heq]
      simp only [countOldOps, countNewOps] at ho2 hn2 ⊢
      constructor
      · simp [List.countP_cons, hlo, opUsesOld, ho2]
      · simp [List.countP_cons, hln, opUsesNew, hn2]
  | case3 i j line rest tail heq ih =>
    intro ops h
    simp only [parseBody, heq] at h
    cases hpb : parseBody (i + 1) j rest with
    | none => rw [hpb] at h; simp at h
    | some tl =>
      rw [hpb] at h
      simp only [Option.map, Option.some.injEq] at h
      subst h
      obtain ⟨ho2, hn2⟩ := ih tl hpb
      have hlo : lineUsesOld line = true := by simp [lineUsesOld, heq]
      have hln : lineUsesNew line = false := by simp [lineUsesNew, heq]
      simp only [countOldOps, countNewOps] at ho2 hn2 ⊢
      constructor
      · simp [List.countP_cons, hlo, opUsesOld, ho2]
      · simp [List.countP_cons, hln, opUsesNew, hn2]
  | case4 i j line rest tail heq ih =>
    intro ops h
    simp only [parseBody, heq] at h
    cases hpb : parseBody i (j + 1) rest with
    | none => rw [hpb] at h; simp at h
    | some tl =>
      rw [hpb] at h
      simp only [Option.map, Option.some.injEq] at h
      subst h
      obtain ⟨ho2, hn2⟩ := ih tl hpb
      have hlo : lineUsesOld line = false := by simp [lineUsesOld, heq]
      have hln : lineUsesNew line = true := by simp [lineUsesNew, heq]
      simp only [countOldOps, countNewOps] at ho2 hn2 ⊢
      constructor
      · simp [List.countP_cons, hlo, opUsesOld, ho2]
      · simp [List.countP_cons, hln, opUsesNew, hn2]
  | case5 i j line rest h1 h2 h3 =>
    intro ops h
    rw [parseBody.eq_2] at h
    split at h
    next cs hq => exact (h1 cs hq).elim
    next cs hq => exact (h2 cs hq).elim
    next cs hq => exact (h3 cs hq).elim
    next => simp at h

end DiffEngine

namespace DiffEngine

/-- Unfolding of the block well-formedness predicate at a hunk. -/
theorem BlocksOf_cons_iff (lines : List String) (hk : Hunk) (hs : List Hunk) :
    BlocksOf lines (hk :: hs) ↔ ∃ (rl : String) (body rest : List String),
      lines = rl :: (body ++ rest) ∧
      parseRange rl.data = some (hk.oldStart, hk.oldCount, hk.newStart, hk.newCount) ∧
      (∀ l ∈ body, hasBodyPfx l = true) ∧
      body.countP lineUsesOld = hk.oldCount ∧
      body.countP lineUsesNew = hk.newCount ∧
      hk.ops.countP opUsesOld = hk.oldCount ∧
      hk.ops.countP opUsesNew = hk.newCount ∧
      BlocksOf rest hs := Iff.rfl

/-- Whatever hunks parseHunks accepts certify their lines well-formed: each
hunk's range line matches the grammar with exactly the declared header, its
body lines all carry a valid marker, and the declared counts equal the
consumed old-side and new-side line tallies. -/
theorem parseHunks_sound :
    ∀ (N : Nat) (lines : List String), lines.length ≤ N →
      ∀ hs : List Hunk, parseHunks lines = some hs → BlocksOf lines hs := by
  intro N
  induction N with
  | zero =>
    intro lines hlen hs h
    cases lines with
    | nil =>
      simp only [parseHunks, Option.some.injEq] at h
      subst h
      exact rfl
    | cons l r => simp at hlen
  | succ N ihN =>
    intro lines hlen hs h
    cases lines with
    | nil =>
      simp only [parseHunks, Option.some.injEq] at h
      subst h
      exact rfl
    | cons line rest =>
      simp only [parseHunks] at h
      cases hpr : parseRange line.data with
      | none =>
        simp only [hpr] at h
        exact Option.noConfusion h
      | some q =>
        obtain ⟨a, b, c2, d⟩ := q
        simp only [hpr] at h
        cases hpb : parseBody (if b = 0 then a else a - 1) (if d = 0 then c2 else c2 - 1)
            (List.takeWhile hasBodyPfx rest) with
        | none =>
          simp only [hpb] at h
          exact Option.noConfusion h
        | some ops =>
          simp only [hpb] at h
          by_cases hc : countOldOps ops = b ∧ countNewOps ops = d
          · rw [if_pos hc] at h
            cases hph : parseHunks (List.dropWhile hasBodyPfx rest) with
            | none =>
              simp only [hph] at h
              exact Option.noConfusion h
            | some hs2 =>
              simp only [hph, Option.some.injEq] at h
              subst h
              rw [BlocksOf_cons_iff]
              have hbound : (List.dropWhile hasBodyPfx rest).length ≤ N := by
                have h1 : (List.dropWhile hasBodyPfx rest).length ≤ rest.length :=
                  (List.dropWhile_sublist _).length_le
                simp only [List.length_cons] at hlen
                omega
              exact ⟨line, List.takeWhile hasBodyPfx rest, List.dropWhile hasBodyPfx rest,
                by rw [List.takeWhile_append_dropWhile], hpr,
                fun l hl => List.mem_takeWhile_imp hl,
                (parseBody_counts _ _ _ ops hpb).1.trans hc.1,
                (parseBody_counts _ _ _ ops hpb).2.trans hc.2,
                hc.1, hc.2,
                ihN (List.dropWhile hasBodyPfx rest) hbound hs2 hph⟩
          · rw [if_neg hc] at h
            exact Option.noConfusion h

end DiffEngine

namespace DiffEngine

/-- Stripping a prefix succeeds exactly on lists carrying it. -/
theorem dropPfx_sound : ∀ (p cs rest : List Char), dropPfx p cs = some rest → cs = p ++ rest := by
  intro p
  induction p with
  | nil =>
    intro cs rest h
    simp only [dropPfx, Option.some.injEq] at h
    subst h
    rfl
  | cons pc pt ih =>
    intro cs rest h
    cases cs with
    | nil =>
      simp only [dropPfx] at h
      exact Option.noConfusion h
    | cons c ct =>
      simp only [dropPfx] at h
      by_cases hpc : pc = c
      · rw [if_pos hpc] at h
        subst hpc
        rw [List.cons_append, ih ct rest h]
      · rw [if_neg hpc] at h
        exact Option.noConfusion h

/-- Every failure of parse is the malformed-diff error. -/
theorem parse_error_malformed (text : String) (e : DiffError)
    (h : parse text = .error e) : e = .malformedDiff := by
  unfold parse at h
  cases hsl : splitLines text with
  | nil =>
    simp only [hsl] at h
    exact (Except.error.inj h).symm
  | cons l1 t1 =>
    cases t1 with
    | nil =>
      simp only [hsl] at h
      exact (Except.error.inj h).symm
    | cons l2 rest =>
      simp only [hsl] at h
      cases hd1 : dropPfx ['-', '-', '-', ' '] l1.data with
      | none =>
        simp only [hd1] at h
        exact (Except.error.inj h).symm
      | some lab1 =>
        cases hd2 : dropPfx ['+', '+', '+', ' '] l2.data with
        | none =>
          simp only [hd1, hd2] at h
          exact (Except.error.inj h).symm
        | some lab2 =>
          simp only [hd1, hd2] at h
          cases hph : parseHunks rest with
          | none =>
            simp only [hph] at h
            exact (Except.error.inj h).symm
          | some hs =>
            simp only [hph] at h
            exact Except.noConfusion h

/-- A successful parse certifies the text's line decomposition: the two
header lines followed by well-formed hunk blocks. -/
theorem parse_ok_sound (text : String) (d : UnifiedDiff) (h : parse text = .ok d) :
    ∃ rest, splitLines text =
        String.mk ('-' :: '-' :: '-' :: ' ' :: d.fileLabelOld.data) ::
        String.mk ('+' :: '+' :: '+' :: ' ' :: d.fileLabelNew.data) :: rest ∧
      BlocksOf rest d.hunks := by
  unfold parse at h
  cases hsl : splitLines text with
  | nil =>
    simp only [hsl] at h
    exact Except.noConfusion h
  | cons l1 t1 =>
    cases t1 with
    | nil =>
      simp only [hsl] at h
      exact Except.noConfusion h
    | cons l2 rest =>
      simp only [hsl] at h
      cases hd1 : dropPfx ['-', '-', '-', ' '] l1.data with
      | none =>
        simp only [hd1] at h
        exact Except.noConfusion h
      | some lab1 =>
        cases hd2 : dropPfx ['+', '+', '+', ' '] l2.data with
        | none =>
          simp only [hd1, hd2] at h
          exact Except.noConfusion h
        | some lab2 =>
          simp only [hd1, hd2] at h
          cases hph : parseHunks rest with
          | none =>
            simp only [hph] at h
            exact Except.noConfusion h
          | some hs =>
            simp only [hph] at h
            have hde := Except.ok.inj h
            subst hde
            refine ⟨rest, ?_, parseHunks_sound rest.length rest le_rfl hs hph⟩
            have h1d := dropPfx_sound ['-', '-', '-', ' '] l1.data lab1 hd1
            have h2d := dropPfx_sound ['+', '+', '+', ' '] l2.data lab2 hd2
            have hl1 : l1 = String.mk ('-' :: '-' :: '-' :: ' ' :: lab1) :=
              congrArg String.mk h1d
            have hl2 : l2 = String.mk ('+' :: '+' :: '+' :: ' ' :: lab2) :=
              congrArg String.mk h2d
            rw [hl1, hl2]

end DiffEngine

/-- C4: parse never fails silently and never accepts malformed input: every
failure of parse is MalformedDiffError; a successful parse certifies that
the text decomposed into the two header lines and one block per hunk, in
which the range line matches the at-at grammar with exactly the declared
header numbers, every consumed body line carries one of the three valid
markers, and the declared oldCount and newCount equal the tallies of
consumed old-side and new-side lines; and the concrete malformed input of
the spec fails with MalformedDiffError. -/
theorem C4_parse_malformed_rejection :
    (∀ (text : String) (e : DiffEngine.DiffError),
        DiffEngine.parse text = .error e → e = .malformedDiff) ∧
    (∀ (text : String) (d : DiffEngine.UnifiedDiff),
        DiffEngine.parse text = .ok d →
        ∃ rest, DiffEngine.splitLines text =
            String.mk ('-' :: '-' :: '-' :: ' ' :: d.fileLabelOld.data) ::
            String.mk ('+' :: '+' :: '+' :: ' ' :: d.fileLabelNew.data) :: rest ∧
          DiffEngine.BlocksOf rest d.hunks) ∧
    DiffEngine.parse "@@ bad @@\n+x" = .error .malformedDiff :=
  ⟨DiffEngine.parse_error_malformed, DiffEngine.parse_ok_sound, by decide⟩

/-- Witness for C4 at a concrete input: the spec's malformed text does fail,
and the failure taxonomy applied there yields the malformed-diff error. -/
theorem C4_parse_malformed_rejection_witness :
    DiffEngine.parse "@@ bad @@\n+x" = .error DiffEngine.DiffError.malformedDiff ∧
    DiffEngine.DiffError.malformedDiff = DiffEngine.DiffError.malformedDiff :=
  ⟨by decide,
   C4_parse_malformed_rejection.1 "@@ bad @@\n+x"
     DiffEngine.DiffError.malformedDiff (by decide)⟩
